import Mathlib

set_option maxHeartbeats 1000000
set_option maxRecDepth 8000

/-!
Verification of the pulumi-webflow repository against its specification.

Part 1 models the resource reconciliation core (schema registry, diff
engine, remote API client with bounded retry, state mapper, CRUD
dispatcher).  The core itself is not shipped in `src/` (only example
programs that call it are), so these definitions are modelled from the
specification, as their doc comments state.

Part 2 embeds the build.gradle patcher
(`src/scripts/patch-java-build-gradle.py`) as executable functions on
`List Char` and proves properties of the patching transformation.
-/

namespace Webflow

/-- Modelled from the spec: attribute values of the reconciliation core
(the core's source is not in `src/`).  Semantic types per the data model:
string, secret-string (secrecy is tracked on the attribute spec, not the
value), integer, boolean, and mapping of string to string; mappings are
compared by full structural equality. -/
inductive Value where
  | str (s : String)
  | int (n : Int)
  | bool (b : Bool)
  | map (m : List (String × String))
deriving DecidableEq, Repr

/-- Modelled from the spec: the enumerated resource kinds of the data
model (the core's source is not in `src/`). -/
inductive Kind where
  | site
  | page
  | collection
  | collectionItem
  | robotsTxt
  | redirect
  | webhook
  | asset
deriving DecidableEq, Repr

/-- Modelled from the spec: per-attribute schema entry of the Schema
Registry (name, input/output role, immutability, secrecy). -/
structure AttributeSpec where
  name : String
  isInput : Bool
  isOutput : Bool
  immutable : Bool
  secret : Bool
deriving DecidableEq, Repr

/-- Input attribute entry. -/
def inp (n : String) (imm : Bool) : AttributeSpec :=
  ⟨n, true, false, imm, false⟩

/-- Secret input attribute entry (secret-string semantic type). -/
def secInp (n : String) (imm : Bool) : AttributeSpec :=
  ⟨n, true, false, imm, true⟩

/-- Computed output attribute entry. -/
def outAttr (n : String) : AttributeSpec :=
  ⟨n, false, true, false, false⟩

/-- Modelled from the spec: the Schema Registry's `spec_for` lookup table
(the core's source is not in `src/`).  Immutability policy per kind:
Collection and Asset have every input immutable; CollectionItem has
`collection_id` and `cms_locale_id` immutable and the rest mutable; Site
has `workspace_id` immutable; Redirect, RobotsTxt and Webhook have all
inputs mutable; Page is read-only (no inputs).  Attribute names follow
the wire names listed in the external-interface section and the example
programs. -/
def spec_for : Kind → List AttributeSpec
  | .site =>
      [inp "display_name" false, inp "short_name" false,
       inp "time_zone" false, inp "custom_domain" false,
       inp "workspace_id" true,
       outAttr "id", outAttr "created_on", outAttr "last_updated"]
  | .page =>
      [outAttr "id", outAttr "title", outAttr "slug"]
  | .collection =>
      [secInp "site_id" true, inp "display_name" true,
       inp "singular_name" true, inp "slug" true,
       outAttr "id", outAttr "created_on"]
  | .collectionItem =>
      [inp "collection_id" true, inp "cms_locale_id" true,
       inp "field_data" false, inp "is_draft" false,
       inp "is_archived" false,
       outAttr "id", outAttr "item_id", outAttr "created_on",
       outAttr "last_updated"]
  | .robotsTxt =>
      [secInp "site_id" false, inp "rules" false,
       outAttr "id", outAttr "last_modified"]
  | .redirect =>
      [secInp "site_id" false, inp "source_path" false,
       inp "destination_path" false, inp "status_code" false,
       outAttr "id"]
  | .webhook =>
      [secInp "site_id" false, inp "trigger_type" false,
       inp "url" false, inp "filter" false,
       outAttr "id", outAttr "created_on"]
  | .asset =>
      [secInp "site_id" true, inp "file_name" true, inp "file_hash" true,
       outAttr "id", outAttr "upload_url", outAttr "upload_parameters",
       outAttr "hosted_url", outAttr "asset_url"]

/-- Input attributes of a kind. -/
def inputAttrs (k : Kind) : List AttributeSpec :=
  (spec_for k).filter (·.isInput)

/-- Output attributes of a kind. -/
def outputAttrs (k : Kind) : List AttributeSpec :=
  (spec_for k).filter (·.isOutput)

/-- Modelled from the spec: whether a kind supports write operations
(Page is the read-only kind). -/
def writable : Kind → Bool
  | .page => false
  | _ => true

/-- A record of attribute values, keyed by attribute name. -/
abbrev AttrMap := List (String × Value)

/-- Attribute lookup in a record. -/
def getAttr (m : AttrMap) (n : String) : Option Value :=
  m.lookup n

/-- Whether attribute `a` differs in value between the previous and the
desired record (value equality; mappings compare structurally). -/
def differs (prev des : AttrMap) (a : AttributeSpec) : Bool :=
  getAttr prev a.name != getAttr des a.name

/-- Modelled from the spec: the Diff Engine's plan actions. -/
inductive DiffAction where
  | noOp
  | update
  | replace
deriving DecidableEq, Repr

/-- Modelled from the spec: a diff plan (action plus the changed
attribute names). -/
structure DiffPlan where
  action : DiffAction
  changed : List String
deriving DecidableEq, Repr

/-- Modelled from the spec: the Diff Engine's `plan` (the core's source
is not in `src/`).  Compares every input attribute of the kind by value
equality; if any changed attribute is immutable the result is Replace
(carrying the full changed set), otherwise Update with exactly the
changed names, otherwise NoOp. -/
def plan (k : Kind) (prev des : AttrMap) : DiffPlan :=
  let changed := (inputAttrs k).filter (differs prev des)
  if changed.any (·.immutable) then
    ⟨.replace, changed.map (·.name)⟩
  else if changed.isEmpty then
    ⟨.noOp, []⟩
  else
    ⟨.update, changed.map (·.name)⟩

end Webflow

open Webflow

/-- Helper: a changed immutable input attribute makes the immutable-scan
of the diff succeed. -/
theorem any_immutable_of_mem {k : Kind} {prev des : AttrMap}
    {a : AttributeSpec} (ha : a ∈ inputAttrs k) (himm : a.immutable = true)
    (hd : differs prev des a = true) :
    ((inputAttrs k).filter (differs prev des)).any (·.immutable) = true := by
  rw [List.any_eq_true]
  exact ⟨a, List.mem_filter.mpr ⟨ha, hd⟩, himm⟩

/-- C1: for every kind, if any immutable input attribute differs in value
between the previous and the desired record, the diff plan's action is
Replace (never Update), regardless of what the other attributes do. -/
theorem immutable_change_forces_replace (k : Kind) (prev des : AttrMap)
    (a : AttributeSpec) (ha : a ∈ inputAttrs k) (himm : a.immutable = true)
    (hd : differs prev des a = true) :
    (plan k prev des).action = .replace ∧
      (plan k prev des).action ≠ .update := by
  have h := any_immutable_of_mem ha himm hd
  unfold plan
  simp only [h, if_true]
  refine ⟨by simp, by simp⟩

/-- Witness for C1: changing only the immutable `workspace_id` of a Site
(with a mutable attribute also changed) plans a Replace. -/
theorem immutable_change_forces_replace_witness :
    (plan .site [("workspace_id", .str "w1"), ("display_name", .str "a")]
        [("workspace_id", .str "w2"), ("display_name", .str "b")]).action
      = .replace := by
  exact (immutable_change_forces_replace .site _ _
    (inp "workspace_id" true) (by decide) rfl (by decide)).1

/-- Helper: every input attribute of the Collection and Asset kinds is
immutable. -/
theorem all_inputs_immutable_of_createOnly {k : Kind}
    (hk : k = .collection ∨ k = .asset) :
    ∀ a ∈ inputAttrs k, a.immutable = true := by
  rcases hk with h | h <;> subst h <;> decide

/-- C2: for the Collection and Asset kinds any non-empty input change
plans a Replace, and no input change can ever plan an Update. -/
theorem createOnly_any_change_replaces (k : Kind) (prev des : AttrMap)
    (hk : k = .collection ∨ k = .asset) :
    ((∃ a ∈ inputAttrs k, differs prev des a = true) →
        (plan k prev des).action = .replace) ∧
      (plan k prev des).action ≠ .update := by
  have hall := all_inputs_immutable_of_createOnly hk
  constructor
  · rintro ⟨a, ha, hd⟩
    have h := any_immutable_of_mem ha (hall a ha) hd
    unfold plan
    simp [h]
  · by_cases hany :
        ((inputAttrs k).filter (differs prev des)).any (·.immutable) = true
    · unfold plan
      simp [hany]
    · have hemp : (inputAttrs k).filter (differs prev des) = [] := by
        cases hfe : (inputAttrs k).filter (differs prev des) with
        | nil => rfl
        | cons b t =>
          exfalso
          apply hany
          have hbmem : b ∈ (inputAttrs k).filter (differs prev des) := by
            rw [hfe]; exact List.mem_cons_self b t
          have hb : b ∈ inputAttrs k := (List.mem_filter.mp hbmem).1
          rw [List.any_eq_true]
          exact ⟨b, hbmem, hall b hb⟩
      unfold plan
      simp [hemp]

/-- Witness for C2: changing a Collection's `slug` plans a Replace and
not an Update. -/
theorem createOnly_any_change_replaces_witness :
    (plan .collection [("slug", .str "blog-posts")]
        [("slug", .str "blog")]).action = .replace ∧
      (plan .collection [("slug", .str "blog-posts")]
        [("slug", .str "blog")]).action ≠ .update := by
  have h := createOnly_any_change_replaces .collection
    [("slug", .str "blog-posts")] [("slug", .str "blog")] (Or.inl rfl)
  exact ⟨h.1 ⟨inp "slug" true, by decide, by decide⟩, h.2⟩

/-- C3: when no changed attribute is immutable for the kind, the diff
plan is NoOp with an empty changed set if no input attribute differs, and
otherwise Update whose changed set is exactly the names of the differing
attributes; and for CollectionItem a change of `collection_id` plans a
Replace. -/
theorem mutable_only_change_updates :
    (∀ (k : Kind) (prev des : AttrMap),
      (∀ a ∈ inputAttrs k, a.immutable = true → differs prev des a = false) →
      ((inputAttrs k).filter (differs prev des) = [] →
          plan k prev des = ⟨.noOp, []⟩) ∧
        (∀ b l, (inputAttrs k).filter (differs prev des) = b :: l →
          plan k prev des =
            ⟨.update, ((inputAttrs k).filter (differs prev des)).map (·.name)⟩)) ∧
      (∀ prev des : AttrMap, differs prev des (inp "collection_id" true) = true →
        (plan .collectionItem prev des).action = .replace) := by
  constructor
  · intro k prev des h
    have hany :
        ((inputAttrs k).filter (differs prev des)).any (·.immutable) = false := by
      rw [← Bool.not_eq_true, List.any_eq_true]
      rintro ⟨a, haf, himm⟩
      have hm := List.mem_filter.mp haf
      have hfalse := h a hm.1 himm
      rw [hm.2] at hfalse
      cases hfalse
    constructor
    · intro hemp
      unfold plan
      simp [hemp]
    · intro b l hcons
      rw [hcons] at hany
      unfold plan
      simp [hcons, hany]
  · intro prev des hd
    have ha : (inp "collection_id" true) ∈ inputAttrs .collectionItem := by
      decide
    have h := any_immutable_of_mem ha rfl hd
    unfold plan
    simp [h]

/-- Witness for C3: changing only `field_data` of a CollectionItem plans
an Update whose changed set is exactly `[field_data]`, and changing
`collection_id` plans a Replace. -/
theorem mutable_only_change_updates_witness :
    plan .collectionItem
        [("collection_id", .str "c1"), ("field_data", .map [("name", "A")])]
        [("collection_id", .str "c1"), ("field_data", .map [("name", "B")])]
      = ⟨.update, ["field_data"]⟩ ∧
      (plan .collectionItem [("collection_id", .str "c1")]
        [("collection_id", .str "c2")]).action = .replace := by
  constructor
  · have h := (mutable_only_change_updates.1 .collectionItem
      [("collection_id", .str "c1"), ("field_data", .map [("name", "A")])]
      [("collection_id", .str "c1"), ("field_data", .map [("name", "B")])]
      (by decide)).2 (inp "field_data" false) [] (by decide)
    rw [h]
    decide
  · exact mutable_only_change_updates.2 [("collection_id", .str "c1")]
      [("collection_id", .str "c2")] (by decide)

namespace Webflow

/-- Modelled from the spec: a log or error-message token of the core.  A
value formatted into a message appears as a `val` token; fixed text and
attribute names appear as `lit` tokens.  The redaction obligation of the
error-handling design is that no secret input value is ever formatted
into a message. -/
inductive Tok where
  | lit (s : String)
  | val (v : Value)
deriving DecidableEq, Repr

/-- A log line or error message: a list of tokens. -/
abbrev Msg := List Tok

/-- Modelled from the spec: the Remote API Client's failure taxonomy. -/
inductive ApiErr where
  | unauthorized
  | notFound
  | rateLimited
  | conflict
  | transient
  | remoteValidation
deriving DecidableEq, Repr

/-- Modelled from the spec: errors surfaced by the dispatcher — a remote
API failure, exhaustion of the bounded retries (Transient-exhausted), a
local validation failure listing every missing required field, or use of
an unsupported operation on a read-only kind. -/
inductive DispatchErr where
  | api (e : ApiErr)
  | exhausted
  | validation (missing : List String)
  | unsupported
deriving DecidableEq, Repr

/-- One remote answer: a response payload or a typed failure. -/
abbrev Response := Except ApiErr AttrMap

/-- Modelled from the spec: only Transient and RateLimited failures are
retried. -/
def retryable : ApiErr → Bool
  | .transient => true
  | .rateLimited => true
  | _ => false

/-- Modelled from the spec: the fixed maximum attempt count of the
bounded retry policy (the concrete constant is a model choice; the spec
fixes only that it is a finite constant). -/
def maxAttempts : Nat := 5

/-- Modelled from the spec: the Remote API Client's retry loop.  The
remote behaviour is a function from the attempt index to a response;
`invokeGo remote i fuel` performs up to `fuel` attempts starting at index
`i`, retrying only retryable failures, and returns the final outcome
together with the number of attempts actually made.  Exhausting the bound
surfaces the Transient-exhausted error.  (Backoff and jitter delays are
timing behaviour and are not modelled.) -/
def invokeGo (remote : Nat → Response) : Nat → Nat → Except DispatchErr AttrMap × Nat
  | _, 0 => (.error .exhausted, 0)
  | i, fuel + 1 =>
    match remote i with
    | .ok p => (.ok p, 1)
    | .error e =>
      if retryable e then
        let r := invokeGo remote (i + 1) fuel
        (r.1, r.2 + 1)
      else
        (.error (.api e), 1)

/-- One bounded-retry invocation of the remote API. -/
def invoke (remote : Nat → Response) : Except DispatchErr AttrMap × Nat :=
  invokeGo remote 0 maxAttempts

/-- Modelled from the spec: the State Mapper's `to_request` — the request
payload carries every supplied input attribute of the kind, secret ones
included. -/
def to_request (k : Kind) (input : AttrMap) : AttrMap :=
  (inputAttrs k).filterMap (fun a => (getAttr input a.name).map (fun v => (a.name, v)))

/-- The empty/default sentinel used for outputs the remote payload
omits. -/
def sentinel : Value := .str ""

/-- Modelled from the spec: the State Mapper's `from_response` — every
declared output attribute of the kind is populated from the response, or
set to the sentinel when the response omits it; input values are never
copied into outputs. -/
def from_response (k : Kind) (resp : AttrMap) : AttrMap :=
  (outputAttrs k).map (fun a => (a.name, (getAttr resp a.name).getD sentinel))

/-- The remote-assigned external id carried in a response payload. -/
def respId (resp : AttrMap) : String :=
  match getAttr resp "id" with
  | some (.str s) => s
  | _ => ""

/-- Modelled from the spec: a resource instance as the dispatcher records
it — the remote-assigned external id (absent until first successful
Create) and the recorded output attributes. -/
structure Instance where
  external_id : Option String
  outputs : AttrMap
deriving DecidableEq, Repr

/-- The Absent instance: no external id, no outputs. -/
def absent : Instance := ⟨none, []⟩

/-- Parent-reference attribute names (foreign keys to another record's
external id). -/
def parentRefNames : List String := ["site_id", "collection_id"]

/-- Whether a parent-reference input is missing or empty in the input
record. -/
def missingRef (input : AttrMap) (a : AttributeSpec) : Bool :=
  parentRefNames.elem a.name &&
    match getAttr input a.name with
    | some (.str s) => s == ""
    | none => true
    | _ => false

/-- Modelled from the spec: Schema Registry validation — lists every
missing required field (parent references must be present and
non-empty before a Create is issued). -/
def validate (k : Kind) (input : AttrMap) : List String :=
  ((inputAttrs k).filter (missingRef input)).map (·.name)

/-- Printable kind name (fixed text, used in log lines). -/
def kindName : Kind → String
  | .site => "site"
  | .page => "page"
  | .collection => "collection"
  | .collectionItem => "collection_item"
  | .robotsTxt => "robots_txt"
  | .redirect => "redirect"
  | .webhook => "webhook"
  | .asset => "asset"

/-- Printable dispatcher error name (fixed text, used in log lines). -/
def dErrName : DispatchErr → String
  | .api .unauthorized => "unauthorized"
  | .api .notFound => "not_found"
  | .api .rateLimited => "rate_limited"
  | .api .conflict => "conflict"
  | .api .transient => "transient"
  | .api .remoteValidation => "remote_validation"
  | .exhausted => "transient_exhausted"
  | .validation _ => "validation_error"
  | .unsupported => "unsupported_operation"

/-- A log line consisting purely of literal text: no attribute value is
ever formatted into it. -/
def litMsg (l : List String) : Msg :=
  l.map Tok.lit

/-- Result of one dispatcher operation: the instance state after the
operation, whether the resource is present, the request payload that was
built, the log lines produced, the surfaced error if any, and the number
of remote attempts made. -/
structure OpResult where
  inst : Instance
  present : Bool
  request : AttrMap
  logs : List Msg
  err : Option DispatchErr
  attempts : Nat
deriving Repr

/-- Modelled from the spec: the CRUD Dispatcher's Create.  Rejects
read-only kinds, validates parent references, builds the request via the
State Mapper, invokes the Remote API Client once (with bounded retry),
and on success stores the external id and the computed outputs; on any
failure the instance remains Absent with no partial record retained. -/
def runCreate (k : Kind) (input : AttrMap) (remote : Nat → Response) : OpResult :=
  if writable k = false then
    ⟨absent, false, [],
      [litMsg ["create", kindName k, "unsupported operation"]],
      some .unsupported, 0⟩
  else
    let missing := validate k input
    if missing.isEmpty = false then
      ⟨absent, false, [],
        [litMsg (["create", kindName k, "validation error"] ++ missing)],
        some (.validation missing), 0⟩
    else
      let req := to_request k input
      match invoke remote with
      | (.ok resp, n) =>
        ⟨⟨some (respId resp), from_response k resp⟩, true, req,
          [litMsg ["created", kindName k, respId resp]], none, n⟩
      | (.error e, n) =>
        ⟨absent, false, req,
          [litMsg ["create failed", kindName k, dErrName e]], some e, n⟩

/-- Modelled from the spec: the CRUD Dispatcher's Read.  NotFound is
translated into `present = false` (drift signal) with no error and no
state change; on success the outputs are refreshed from the response. -/
def runRead (k : Kind) (inst : Instance) (remote : Nat → Response) : OpResult :=
  match invoke remote with
  | (.ok resp, n) =>
    ⟨⟨inst.external_id, from_response k resp⟩, true, [],
      [litMsg ["read", kindName k]], none, n⟩
  | (.error e, n) =>
    if e = .api .notFound then
      ⟨inst, false, [],
        [litMsg ["read", kindName k, "not found, reporting absent"]], none, n⟩
    else
      ⟨inst, inst.external_id.isSome, [],
        [litMsg ["read failed", kindName k, dErrName e]], some e, n⟩

/-- Modelled from the spec: the CRUD Dispatcher's Update.  The request
carries only the changed attributes of the plan; on success the outputs
are refreshed; on failure the previously recorded instance is returned
untouched. -/
def runUpdate (k : Kind) (inst : Instance) (prev des : AttrMap)
    (remote : Nat → Response) : OpResult :=
  let changed := (plan k prev des).changed
  let req := (to_request k des).filter (fun kv => changed.elem kv.1)
  match invoke remote with
  | (.ok resp, n) =>
    ⟨⟨inst.external_id, from_response k resp⟩, true, req,
      [litMsg (["updated", kindName k] ++ changed)], none, n⟩
  | (.error e, n) =>
    ⟨inst, inst.external_id.isSome, req,
      [litMsg ["update failed", kindName k, dErrName e]], some e, n⟩

/-- Modelled from the spec: the CRUD Dispatcher's Delete.  NotFound is
treated as already-deleted success (idempotent delete); on success the
external id is cleared and the instance becomes Absent. -/
def runDelete (k : Kind) (inst : Instance) (remote : Nat → Response) : OpResult :=
  match invoke remote with
  | (.ok _, n) =>
    ⟨absent, false, [], [litMsg ["deleted", kindName k]], none, n⟩
  | (.error e, n) =>
    if e = .api .notFound then
      ⟨absent, false, [],
        [litMsg ["delete", kindName k, "already absent"]], none, n⟩
    else
      ⟨inst, inst.external_id.isSome, [],
        [litMsg ["delete failed", kindName k, dErrName e]], some e, n⟩

/-- Modelled from the spec: the CRUD Dispatcher's Replace —
delete-then-create.  If the Delete half fails the old instance is kept
and the failure surfaced; if the Delete half succeeds and the Create
half fails, the instance is left Absent and the Create failure is
surfaced (no automatic resurrection). -/
def runReplace (k : Kind) (inst : Instance) (input : AttrMap)
    (remote : Nat → Response) : OpResult :=
  let d := runDelete k inst remote
  match d.err with
  | some e =>
    ⟨d.inst, d.present, [], d.logs, some e, d.attempts⟩
  | none =>
    let c := runCreate k input (fun i => remote (d.attempts + i))
    ⟨c.inst, c.present, c.request, d.logs ++ c.logs, c.err,
      d.attempts + c.attempts⟩

end Webflow

/-- Helper: the retry loop never makes more attempts than its fuel. -/
theorem invokeGo_attempts_le (remote : Nat → Response) (i fuel : Nat) :
    (invokeGo remote i fuel).2 ≤ fuel := by
  induction fuel generalizing i with
  | zero => simp [invokeGo]
  | succ f ih =>
    unfold invokeGo
    cases hr : remote i with
    | ok p => simp
    | error e =>
      by_cases hre : retryable e = true
      · simpa [hre] using Nat.succ_le_succ (ih (i + 1))
      · simp [hre]

/-- Helper: a run of retryable failures shorter than the fuel, followed
by a success, yields that success, using one attempt per response. -/
theorem invokeGo_ok_after_retries (remote : Nat → Response) (p : AttrMap) :
    ∀ (k i fuel : Nat), k < fuel →
      (∀ t, t < k → ∃ e, remote (i + t) = .error e ∧ retryable e = true) →
      remote (i + k) = .ok p →
      invokeGo remote i fuel = (.ok p, k + 1) := by
  intro k
  induction k with
  | zero =>
    intro i fuel hk _ hok
    cases fuel with
    | zero => omega
    | succ f =>
      rw [Nat.add_zero] at hok
      unfold invokeGo
      rw [hok]
  | succ k ih =>
    intro i fuel hk hrun hok
    cases fuel with
    | zero => omega
    | succ f =>
      obtain ⟨e, he, hre⟩ := hrun 0 (Nat.succ_pos k)
      rw [Nat.add_zero] at he
      unfold invokeGo
      rw [he]
      simp only [hre, if_true]
      have := ih (i + 1) f (by omega)
        (fun t ht => by
          obtain ⟨e', he', hre'⟩ := hrun (t + 1) (by omega)
          exact ⟨e', by rw [← he']; ring_nf, hre'⟩)
        (by rw [← hok]; ring_nf)
      rw [this]

/-- Helper: persistently retryable failures exhaust the whole fuel and
surface the Transient-exhausted error. -/
theorem invokeGo_exhausts (remote : Nat → Response)
    (h : ∀ t, ∃ e, remote t = .error e ∧ retryable e = true) :
    ∀ (fuel i : Nat), invokeGo remote i fuel = (.error .exhausted, fuel) := by
  intro fuel
  induction fuel with
  | zero => intro i; rfl
  | succ f ih =>
    intro i
    obtain ⟨e, he, hre⟩ := h i
    unfold invokeGo
    rw [he]
    simp [hre, ih (i + 1)]

/-- Helper: every attempt before the last one consumed a retryable
failure (non-retryable failures and successes stop the loop at once). -/
theorem invokeGo_retries_only_retryable (remote : Nat → Response) :
    ∀ (fuel i j : Nat), j + 1 < (invokeGo remote i fuel).2 →
      ∃ e, remote (i + j) = .error e ∧ retryable e = true := by
  intro fuel
  induction fuel with
  | zero => intro i j h; simp [invokeGo] at h
  | succ f ih =>
    intro i j h
    unfold invokeGo at h
    cases hr : remote i with
    | ok p => rw [hr] at h; simp at h
    | error e =>
      rw [hr] at h
      by_cases hre : retryable e = true
      · simp only [hre, if_true] at h
        cases j with
        | zero => exact ⟨e, by simpa using hr, hre⟩
        | succ j' =>
          obtain ⟨e', he', hre'⟩ := ih (i + 1) j' (by omega)
          exact ⟨e', by rw [← he']; ring_nf, hre'⟩
      · simp [hre] at h

/-- C7: the dispatcher's remote invocation retries only Transient and
RateLimited failures; it makes at most the fixed maximum number of
attempts and surfaces the Transient-exhausted error instead of looping; a
run of RateLimited answers shorter than the bound followed by a success
yields that success; Unauthorized, Conflict and RemoteValidation are
surfaced after exactly one attempt. -/
theorem retry_policy_bounded :
    (∀ (remote : Nat → Response), (invoke remote).2 ≤ maxAttempts) ∧
    (∀ (remote : Nat → Response) (i fuel j : Nat),
        j + 1 < (invokeGo remote i fuel).2 →
        ∃ e, remote (i + j) = .error e ∧ retryable e = true) ∧
    (retryable .unauthorized = false ∧ retryable .conflict = false ∧
      retryable .remoteValidation = false ∧ retryable .transient = true ∧
      retryable .rateLimited = true) ∧
    (∀ (remote : Nat → Response) (fuel : Nat) (e : ApiErr),
        retryable e = false → remote 0 = .error e →
        invokeGo remote 0 (fuel + 1) = (.error (.api e), 1)) ∧
    (∀ (remote : Nat → Response) (k : Nat) (p : AttrMap),
        k < maxAttempts →
        (∀ t, t < k → remote t = .error .rateLimited) →
        remote k = .ok p →
        invoke remote = (.ok p, k + 1)) ∧
    (∀ remote : Nat → Response,
        (∀ t, remote t = .error .rateLimited) →
        invoke remote = (.error .exhausted, maxAttempts)) := by
  refine ⟨?_, ?_, ?_, ?_, ?_, ?_⟩
  · intro remote
    exact invokeGo_attempts_le remote 0 maxAttempts
  · intro remote i fuel j h
    exact invokeGo_retries_only_retryable remote fuel i j h
  · exact ⟨rfl, rfl, rfl, rfl, rfl⟩
  · intro remote fuel e hre h
    unfold invokeGo
    rw [h]
    simp [hre]
  · intro remote k p hk hrun hok
    unfold invoke
    exact invokeGo_ok_after_retries remote p k 0 maxAttempts hk
      (fun t ht => ⟨.rateLimited, by simpa using hrun t ht, rfl⟩)
      (by simpa using hok)
  · intro remote h
    unfold invoke
    exact invokeGo_exhausts remote (fun t => ⟨.rateLimited, h t, rfl⟩)
      maxAttempts 0

/-- Witness for C7: two RateLimited answers followed by a success succeed
on the third attempt, and a persistently RateLimited endpoint surfaces
the Transient-exhausted error after the full attempt budget. -/
theorem retry_policy_bounded_witness :
    invoke (fun t => if t < 2 then .error .rateLimited else .ok []) = (.ok [], 3) ∧
      invoke (fun _ => .error .rateLimited) = (.error .exhausted, maxAttempts) := by
  constructor
  · exact retry_policy_bounded.2.2.2.2.1
      (fun t => if t < 2 then .error .rateLimited else .ok []) 2 []
      (by decide) (fun t ht => by simp [ht]) (by simp)
  · exact retry_policy_bounded.2.2.2.2.2 (fun _ => .error .rateLimited)
      (fun _ => rfl)

/-- Helper: a remote answering NotFound first is surfaced as a
single-attempt NotFound failure by the retry loop. -/
theorem invoke_notFound (remote : Nat → Response)
    (h : remote 0 = .error .notFound) :
    invoke remote = (.error (.api .notFound), 1) := by
  unfold invoke maxAttempts invokeGo
  rw [h]
  simp [retryable]

/-- C5: when the remote API answers NotFound, Read reports the resource
as absent (`present = false`) without an error and without touching the
recorded instance, and Delete succeeds without an error (idempotent
delete), clearing the external id. -/
theorem notFound_is_absence_not_error (k : Kind) (eid : String)
    (outs : AttrMap) (remote : Nat → Response)
    (h : remote 0 = .error .notFound) :
    (runRead k ⟨some eid, outs⟩ remote).present = false ∧
      (runRead k ⟨some eid, outs⟩ remote).err = none ∧
      (runRead k ⟨some eid, outs⟩ remote).inst = ⟨some eid, outs⟩ ∧
      (runDelete k ⟨some eid, outs⟩ remote).err = none ∧
      (runDelete k ⟨some eid, outs⟩ remote).inst.external_id = none := by
  have hinv := invoke_notFound remote h
  unfold runRead runDelete
  rw [hinv]
  exact ⟨rfl, rfl, rfl, rfl, rfl⟩

/-- Witness for C5: deleting and reading an externally-deleted webhook. -/
theorem notFound_is_absence_not_error_witness :
    (runRead .webhook ⟨some "w1", []⟩ (fun _ => .error .notFound)).present
        = false ∧
      (runDelete .webhook ⟨some "w1", []⟩
          (fun _ => .error .notFound)).err = none := by
  have h := notFound_is_absence_not_error .webhook "w1" []
    (fun _ => .error .notFound) rfl
  exact ⟨h.1, h.2.2.2.1⟩

/-- Helper: every failing Create leaves the instance Absent (no external
id, no outputs recorded). -/
theorem runCreate_absent_of_err (k : Kind) (input : AttrMap)
    (remote : Nat → Response)
    (h : (runCreate k input remote).err.isSome = true) :
    (runCreate k input remote).inst = absent := by
  unfold runCreate
  by_cases hw : writable k = false
  · simp [hw]
  · by_cases hv : (validate k input).isEmpty = false
    · simp [hw, hv]
    · rcases hi : invoke remote with ⟨res, n⟩
      cases res with
      | ok p =>
        exfalso
        unfold runCreate at h
        simp [hw, hv, hi] at h
      | error e => simp [hw, hv, hi]

/-- C6: failures persist no partial state — a failed Create leaves the
instance Absent with no external id; a failed Update returns the
previously recorded instance untouched; and when the Delete half of a
Replace succeeds but the Create half fails, the instance is left Absent
and the Create failure is surfaced. -/
theorem no_partial_state_on_failure :
    (∀ (k : Kind) (input : AttrMap) (remote : Nat → Response),
        (runCreate k input remote).err.isSome = true →
        (runCreate k input remote).inst = absent ∧
          (runCreate k input remote).inst.external_id = none) ∧
    (∀ (k : Kind) (inst : Instance) (prev des : AttrMap)
        (remote : Nat → Response),
        (runUpdate k inst prev des remote).err.isSome = true →
        (runUpdate k inst prev des remote).inst = inst) ∧
    (∀ (k : Kind) (inst : Instance) (input : AttrMap)
        (remote : Nat → Response),
        (runDelete k inst remote).err = none →
        (runCreate k input
            (fun i => remote ((runDelete k inst remote).attempts + i))).err.isSome
          = true →
        (runReplace k inst input remote).inst = absent ∧
          (runReplace k inst input remote).err.isSome = true) := by
  refine ⟨?_, ?_, ?_⟩
  · intro k input remote h
    have := runCreate_absent_of_err k input remote h
    exact ⟨this, by rw [this]; rfl⟩
  · intro k inst prev des remote h
    unfold runUpdate at h ⊢
    rcases hi : invoke remote with ⟨res, n⟩
    cases res with
    | ok p =>
      exfalso
      rw [hi] at h
      simp at h
    | error e => rfl
  · intro k inst input remote hd hc
    have habs := runCreate_absent_of_err k input
      (fun i => remote ((runDelete k inst remote).attempts + i)) hc
    unfold runReplace
    simp only [hd]
    exact ⟨habs, hc⟩

/-- Witness for C6: a Create rejected by remote validation leaves the
instance Absent, and a Replace whose Delete succeeded but whose Create
was then rejected leaves the instance Absent with the failure
surfaced. -/
theorem no_partial_state_on_failure_witness :
    (runCreate .site [("display_name", .str "Marketing Site")]
        (fun _ => .error .remoteValidation)).inst = absent ∧
      (runReplace .collection ⟨some "c1", []⟩
          [("site_id", .str "s1"), ("display_name", .str "Blog")]
          (fun i => if i = 0 then .ok [] else .error .remoteValidation)).inst
        = absent := by
  constructor
  · exact (no_partial_state_on_failure.1 .site
      [("display_name", .str "Marketing Site")]
      (fun _ => .error .remoteValidation) (by decide)).1
  · exact (no_partial_state_on_failure.2.2 .collection ⟨some "c1", []⟩
      [("site_id", .str "s1"), ("display_name", .str "Blog")]
      (fun i => if i = 0 then .ok [] else .error .remoteValidation)
      (by decide) (by decide)).1

/-- Helper: a remote succeeding on the first attempt yields that payload
after exactly one attempt. -/
theorem invoke_ok_first (remote : Nat → Response) (resp : AttrMap)
    (h : remote 0 = .ok resp) :
    invoke remote = (.ok resp, 1) := by
  unfold invoke maxAttempts invokeGo
  rw [h]

/-- C8: a successful Asset Create returns outputs carrying the
UploadHandoff exactly as the remote registration response supplied it
(non-empty `upload_url` and non-empty `upload_parameters`), marks the
instance Present immediately, and performs exactly one remote
interaction — no polling or waiting on the external file upload. -/
theorem asset_create_upload_handoff (input resp : AttrMap)
    (remote : Nat → Response) (u : String) (m : List (String × String))
    (hrem : remote 0 = .ok resp)
    (hval : validate .asset input = [])
    (hu : getAttr resp "upload_url" = some (.str u)) (hune : u ≠ "")
    (hm : getAttr resp "upload_parameters" = some (.map m)) (hmne : m ≠ []) :
    (runCreate .asset input remote).err = none ∧
      (runCreate .asset input remote).present = true ∧
      (runCreate .asset input remote).inst.external_id = some (respId resp) ∧
      (runCreate .asset input remote).attempts = 1 ∧
      getAttr (runCreate .asset input remote).inst.outputs "upload_url"
        = some (.str u) ∧
      getAttr (runCreate .asset input remote).inst.outputs "upload_parameters"
        = some (.map m) ∧
      u ≠ "" ∧ m ≠ [] := by
  have hinv := invoke_ok_first remote resp hrem
  unfold getAttr at hu hm
  unfold runCreate
  rw [hinv]
  simp only [writable, Bool.false_eq_true, if_false, hval, List.isEmpty_nil]
  refine ⟨rfl, rfl, rfl, rfl, ?_, ?_, hune, hmne⟩
  · simp [from_response, outputAttrs, spec_for, getAttr, outAttr, secInp, inp,
      List.lookup, hu]
  · simp [from_response, outputAttrs, spec_for, getAttr, outAttr, secInp, inp,
      List.lookup, hm]

/-- Witness for C8: registering a concrete asset returns its upload
handoff immediately. -/
theorem asset_create_upload_handoff_witness :
    getAttr (runCreate .asset
        [("site_id", .str "s1"), ("file_name", .str "logo.png"),
         ("file_hash", .str "d41d8cd98f00b204e9800998ecf8427e")]
        (fun _ => .ok
          [("id", .str "a1"), ("upload_url", .str "https://upload"),
           ("upload_parameters", .map [("key", "v")])])).inst.outputs
      "upload_url" = some (.str "https://upload") := by
  exact (asset_create_upload_handoff
    [("site_id", .str "s1"), ("file_name", .str "logo.png"),
     ("file_hash", .str "d41d8cd98f00b204e9800998ecf8427e")]
    [("id", .str "a1"), ("upload_url", .str "https://upload"),
     ("upload_parameters", .map [("key", "v")])]
    (fun _ => .ok
      [("id", .str "a1"), ("upload_url", .str "https://upload"),
       ("upload_parameters", .map [("key", "v")])])
    "https://upload" [("key", "v")] rfl (by decide) (by decide)
    (by decide) (by decide) (by decide)).2.2.2.2.1

/-- Helper: every log line of a Create is pure literal text. -/
theorem runCreate_logs_shape (k : Kind) (input : AttrMap)
    (remote : Nat → Response) :
    ∀ msg ∈ (runCreate k input remote).logs, ∃ ls, msg = litMsg ls := by
  intro msg hmsg
  unfold runCreate at hmsg
  by_cases hw : writable k = false
  · simp [hw] at hmsg
    exact ⟨_, hmsg⟩
  · by_cases hv : (validate k input).isEmpty = false
    · simp [hw, hv] at hmsg
      exact ⟨_, hmsg⟩
    · rcases hi : invoke remote with ⟨res, n⟩
      rw [hi] at hmsg
      cases res with
      | ok p =>
        simp [hw, hv] at hmsg
        exact ⟨_, hmsg⟩
      | error e =>
        simp [hw, hv] at hmsg
        exact ⟨_, hmsg⟩

/-- Helper: every log line of a Read is pure literal text. -/
theorem runRead_logs_shape (k : Kind) (inst : Instance)
    (remote : Nat → Response) :
    ∀ msg ∈ (runRead k inst remote).logs, ∃ ls, msg = litMsg ls := by
  intro msg hmsg
  unfold runRead at hmsg
  rcases hi : invoke remote with ⟨res, n⟩
  rw [hi] at hmsg
  cases res with
  | ok p =>
    simp at hmsg
    exact ⟨_, hmsg⟩
  | error e =>
    by_cases he : e = .api .notFound
    · simp [he] at hmsg
      exact ⟨_, hmsg⟩
    · simp [he] at hmsg
      exact ⟨_, hmsg⟩

/-- Helper: every log line of an Update is pure literal text. -/
theorem runUpdate_logs_shape (k : Kind) (inst : Instance) (prev des : AttrMap)
    (remote : Nat → Response) :
    ∀ msg ∈ (runUpdate k inst prev des remote).logs, ∃ ls, msg = litMsg ls := by
  intro msg hmsg
  unfold runUpdate at hmsg
  rcases hi : invoke remote with ⟨res, n⟩
  rw [hi] at hmsg
  cases res with
  | ok p =>
    simp at hmsg
    exact ⟨_, hmsg⟩
  | error e =>
    simp at hmsg
    exact ⟨_, hmsg⟩

/-- Helper: every log line of a Delete is pure literal text. -/
theorem runDelete_logs_shape (k : Kind) (inst : Instance)
    (remote : Nat → Response) :
    ∀ msg ∈ (runDelete k inst remote).logs, ∃ ls, msg = litMsg ls := by
  intro msg hmsg
  unfold runDelete at hmsg
  rcases hi : invoke remote with ⟨res, n⟩
  rw [hi] at hmsg
  cases res with
  | ok p =>
    simp at hmsg
    exact ⟨_, hmsg⟩
  | error e =>
    by_cases he : e = .api .notFound
    · simp [he] at hmsg
      exact ⟨_, hmsg⟩
    · simp [he] at hmsg
      exact ⟨_, hmsg⟩

/-- Helper: a token of a literal-text log line is never a formatted
value. -/
theorem litMsg_no_val {msg : Msg} (hshape : ∃ ls, msg = litMsg ls)
    {t : Tok} (ht : t ∈ msg) : ∀ v : Value, t ≠ .val v := by
  obtain ⟨ls, rfl⟩ := hshape
  obtain ⟨s, _, rfl⟩ := List.mem_map.mp ht
  intro v h
  cases h

/-- Helper: the retry loop only ever surfaces a remote API error or the
Transient-exhausted error, never a locally-constructed one. -/
theorem invokeGo_err_shape (remote : Nat → Response) :
    ∀ (fuel i : Nat) (d : DispatchErr),
      (invokeGo remote i fuel).1 = .error d →
      d = .exhausted ∨ ∃ a, d = .api a := by
  intro fuel
  induction fuel with
  | zero =>
    intro i d h
    simp [invokeGo] at h
    exact Or.inl h.symm
  | succ f ih =>
    intro i d h
    unfold invokeGo at h
    cases hr : remote i with
    | ok p => rw [hr] at h; simp at h
    | error e =>
      rw [hr] at h
      by_cases hre : retryable e = true
      · simp only [hre, if_true] at h
        exact ih (i + 1) d h
      · simp [hre] at h
        exact Or.inr ⟨e, h.symm⟩

/-- C4: secret-tagged input values never leak — every log line of every
CRUD operation is pure literal text containing no formatted value; a
validation error message lists only schema attribute names; every output
attribute is populated from the remote response (or the sentinel), never
copied from the input; yet the secret value is still placed into the
request payload and still participates in the diff's value-equality
comparison. -/
theorem secret_values_never_leak :
    (∀ (k : Kind) (input : AttrMap) (remote : Nat → Response) (msg : Msg)
        (t : Tok), msg ∈ (runCreate k input remote).logs → t ∈ msg →
        ∀ v : Value, t ≠ .val v) ∧
    (∀ (k : Kind) (inst : Instance) (remote : Nat → Response) (msg : Msg)
        (t : Tok), msg ∈ (runRead k inst remote).logs → t ∈ msg →
        ∀ v : Value, t ≠ .val v) ∧
    (∀ (k : Kind) (inst : Instance) (prev des : AttrMap)
        (remote : Nat → Response) (msg : Msg) (t : Tok),
        msg ∈ (runUpdate k inst prev des remote).logs → t ∈ msg →
        ∀ v : Value, t ≠ .val v) ∧
    (∀ (k : Kind) (inst : Instance) (remote : Nat → Response) (msg : Msg)
        (t : Tok), msg ∈ (runDelete k inst remote).logs → t ∈ msg →
        ∀ v : Value, t ≠ .val v) ∧
    (∀ (k : Kind) (input : AttrMap) (remote : Nat → Response)
        (ms : List String),
        (runCreate k input remote).err = some (.validation ms) →
        ∀ n ∈ ms, ∃ a ∈ inputAttrs k, n = a.name) ∧
    (∀ (k : Kind) (resp : AttrMap) (nm : String) (v : Value),
        (nm, v) ∈ from_response k resp →
        v = (getAttr resp nm).getD sentinel) ∧
    (∀ (k : Kind) (input : AttrMap) (a : AttributeSpec) (v : Value),
        a ∈ inputAttrs k → getAttr input a.name = some v →
        (a.name, v) ∈ to_request k input) ∧
    (∀ (k : Kind) (prev des : AttrMap) (a : AttributeSpec),
        a ∈ inputAttrs k → differs prev des a = true →
        a.name ∈ (plan k prev des).changed) := by
  refine ⟨?_, ?_, ?_, ?_, ?_, ?_, ?_, ?_⟩
  · intro k input remote msg t hmsg ht
    exact litMsg_no_val (runCreate_logs_shape k input remote msg hmsg) ht
  · intro k inst remote msg t hmsg ht
    exact litMsg_no_val (runRead_logs_shape k inst remote msg hmsg) ht
  · intro k inst prev des remote msg t hmsg ht
    exact litMsg_no_val (runUpdate_logs_shape k inst prev des remote msg hmsg) ht
  · intro k inst remote msg t hmsg ht
    exact litMsg_no_val (runDelete_logs_shape k inst remote msg hmsg) ht
  · intro k input remote ms herr n hn
    unfold runCreate at herr
    by_cases hw : writable k = false
    · simp [hw] at herr
    · by_cases hv : (validate k input).isEmpty = false
      · simp [hw, hv] at herr
        rw [← herr] at hn
        unfold validate at hn
        obtain ⟨a, haf, hname⟩ := List.mem_map.mp hn
        exact ⟨a, (List.mem_filter.mp haf).1, hname.symm⟩
      · rcases hi : invoke remote with ⟨res, n'⟩
        rw [hi] at herr
        cases res with
        | ok p => simp [hw, hv] at herr
        | error e =>
          simp [hw, hv] at herr
          have := invokeGo_err_shape remote maxAttempts 0 e
            (by rw [show invokeGo remote 0 maxAttempts = invoke remote from rfl,
              hi])
          rw [herr] at this
          rcases this with h | ⟨a, h⟩ <;> cases h
  · intro k resp nm v hmem
    obtain ⟨a, _, heq⟩ := List.mem_map.mp hmem
    cases heq
    rfl
  · intro k input a v ha hv
    refine List.mem_filterMap.mpr ⟨a, ha, ?_⟩
    rw [hv]
    rfl
  · intro k prev des a ha hd
    have haf : a ∈ (inputAttrs k).filter (differs prev des) :=
      List.mem_filter.mpr ⟨ha, hd⟩
    unfold plan
    by_cases hany :
        ((inputAttrs k).filter (differs prev des)).any (·.immutable) = true
    · simp only [hany, if_true]
      exact List.mem_map.mpr ⟨a, haf, rfl⟩
    · have hie : ((inputAttrs k).filter (differs prev des)).isEmpty = false := by
        cases hfe : (inputAttrs k).filter (differs prev des) with
        | nil => rw [hfe] at haf; cases haf
        | cons b t => rfl
      simp only [hany, hie, if_false, Bool.false_eq_true]
      exact List.mem_map.mpr ⟨a, haf, rfl⟩

/-- Witness for C4: a secret `site_id` is carried into the request
payload and participates in the diff, while a concrete Create log token
is literal text and a concrete output comes from the response alone. -/
theorem secret_values_never_leak_witness :
    ("site_id", Value.str "SECRET-S1") ∈
        to_request .asset
          [("site_id", .str "SECRET-S1"), ("file_name", .str "logo.png"),
           ("file_hash", .str "h1")] ∧
      "site_id" ∈ (plan .asset [("site_id", .str "SECRET-S1")]
          [("site_id", .str "SECRET-S2")]).changed ∧
      (∀ v : Value, Tok.lit "created" ≠ Tok.val v) := by
  refine ⟨?_, ?_, ?_⟩
  · exact secret_values_never_leak.2.2.2.2.2.2.1 .asset
      [("site_id", .str "SECRET-S1"), ("file_name", .str "logo.png"),
       ("file_hash", .str "h1")]
      (secInp "site_id" true) (.str "SECRET-S1") (by decide) (by decide)
  · exact secret_values_never_leak.2.2.2.2.2.2.2 .asset
      [("site_id", .str "SECRET-S1")] [("site_id", .str "SECRET-S2")]
      (secInp "site_id" true) (by decide) (by decide)
  · exact secret_values_never_leak.1 .site [] (fun _ => .ok [])
      (litMsg ["created", kindName .site, respId []]) (Tok.lit "created")
      (by decide) (by decide)

namespace GradlePatch

/-- Python's `\s` on ASCII text: space, tab, newline, carriage return,
form feed, vertical tab. -/
def isWs (c : Char) : Bool :=
  c = ' ' || c = '\t' || c = '\n' || c = '\r' || c = '\x0b' || c = '\x0c'

/-- First-occurrence split: `splitOccur p s = some (u, v)` when
`s = u ++ p ++ v` with `u` shortest, `none` when `p` does not occur in
`s` (the scan of Python's `str.find`/`in`). -/
def splitOccur (p : List Char) : List Char → Option (List Char × List Char)
  | [] => if p.isPrefixOf [] then some ([], []) else none
  | c :: t =>
    if p.isPrefixOf (c :: t) then
      some ([], (c :: t).drop p.length)
    else
      (splitOccur p t).map (fun pr => (c :: pr.1, pr.2))

/-- Python's `in` on strings. -/
def containsB (p s : List Char) : Bool :=
  (splitOccur p s).isSome

/-- The shared loop of `str.replace` and `re.sub`: repeatedly locate the
next match via `find` (which returns the text before and including any
kept group, and the text after the removed match), splice in `ins`, and
continue scanning after the match.  `fuel` bounds the recursion; every
find used here removes at least one character, so `length + 1` fuel is
always enough. -/
def subAllF (find : List Char → Option (List Char × List Char))
    (ins : List Char) : Nat → List Char → List Char
  | 0, s => s
  | fuel + 1, s =>
    match find s with
    | none => s
    | some (pre, rest) => pre ++ ins ++ subAllF find ins fuel rest

/-- Python's `str.replace` (all occurrences, left to right). -/
def replaceAll (a b s : List Char) : List Char :=
  subAllF (splitOccur a) b (s.length + 1) s

/-- A `re.sub(..., count=1)`: rewrite only the first match. -/
def subOnce (find : List Char → Option (List Char × List Char))
    (ins : List Char) (s : List Char) : List Char :=
  match find s with
  | none => s
  | some (pre, rest) => pre ++ ins ++ rest

/-- The lazy `[^}]*?PH` tail of the patcher's regexes: the shortest
brace-free gap followed by the placeholder `ph`; returns the gap and the
text after the placeholder. -/
def gapTo (ph : List Char) : List Char → Option (List Char × List Char)
  | [] => if ph.isPrefixOf [] then some ([], []) else none
  | c :: t =>
    if ph.isPrefixOf (c :: t) then
      some ([], (c :: t).drop ph.length)
    else if c = '\x7d' then none
    else (gapTo ph t).map (fun pr => (c :: pr.1, pr.2))

/-- The `[^}]*?A2[^}]*?PH` middle of the nested regexes, with regex
backtracking order: shortest first gap to an `a2` occurrence whose own
lazy gap reaches `ph`; on inner failure the first gap is extended (still
brace-free). -/
def scanNest (a2 ph : List Char) : List Char → Option (List Char × List Char)
  | [] =>
    if a2.isPrefixOf [] then
      match gapTo ph [] with
      | some (g2, r) => some (a2 ++ g2, r)
      | none => none
    else none
  | c :: t =>
    if a2.isPrefixOf (c :: t) then
      match gapTo ph ((c :: t).drop a2.length) with
      | some (g2, r) => some (a2 ++ g2, r)
      | none =>
        if c = '\x7d' then none
        else (scanNest a2 ph t).map (fun pr => (c :: pr.1, pr.2))
    else if c = '\x7d' then none
    else (scanNest a2 ph t).map (fun pr => (c :: pr.1, pr.2))

/-- Leftmost match of `A1[^}]*?A2[^}]*?PH` (the licenses/developers
regexes): returns the text before the placeholder (match prefix and kept
group included) and the text after it. -/
def findNest (a1 a2 ph : List Char) : List Char → Option (List Char × List Char)
  | [] =>
    if a1.isPrefixOf [] then
      match scanNest a2 ph [] with
      | some (m, r) => some (a1 ++ m, r)
      | none => none
    else none
  | c :: t =>
    if a1.isPrefixOf (c :: t) then
      match scanNest a2 ph ((c :: t).drop a1.length) with
      | some (m, r) => some (a1 ++ m, r)
      | none => (findNest a1 a2 ph t).map (fun pr => (c :: pr.1, pr.2))
    else
      (findNest a1 a2 ph t).map (fun pr => (c :: pr.1, pr.2))

/-- Leftmost match of `A1[^}]*?PH` (the pom-name regex). -/
def findOne (a1 ph : List Char) : List Char → Option (List Char × List Char)
  | [] =>
    if a1.isPrefixOf [] then
      match gapTo ph [] with
      | some (g, r) => some (a1 ++ g, r)
      | none => none
    else none
  | c :: t =>
    if a1.isPrefixOf (c :: t) then
      match gapTo ph ((c :: t).drop a1.length) with
      | some (g, r) => some (a1 ++ g, r)
      | none => (findOne a1 ph t).map (fun pr => (c :: pr.1, pr.2))
    else
      (findOne a1 ph t).map (fun pr => (c :: pr.1, pr.2))

end GradlePatch

namespace GradlePatch

/-- Marker: `'io.github.gradle-nexus.publish-plugin' in content`. -/
def g1 : List Char := "io.github.gradle-nexus.publish-plugin".toList

/-- Replace target for adding the nexus publish plugin. -/
def a1 : List Char := "id(\"maven-publish\")".toList

/-- Replacement adding the nexus publish plugin line. -/
def b1 : List Char :=
  "id(\"maven-publish\")\n    id(\"io.github.gradle-nexus.publish-plugin\") version \"2.0.0\"".toList

/-- Marker: `'def signingKeyId' in content`. -/
def g2 : List Char := "def signingKeyId".toList

/-- Replace target for adding the signingKeyId variable. -/
def a2 : List Char := "def signingKey = System.getenv(\"SIGNING_KEY\")".toList

/-- Replacement adding the signingKeyId line. -/
def b2 : List Char :=
  "def signingKeyId = System.getenv(\"SIGNING_KEY_ID\")\ndef signingKey = System.getenv(\"SIGNING_KEY\")".toList

/-- Marker: `'def publishStagingURL' in content`. -/
def g3 : List Char := "def publishStagingURL".toList

/-- Replace target for inserting the publishStagingURL default
definition. -/
def a3 : List Char :=
  "def publishRepoUsername = System.getenv(\"PUBLISH_REPO_USERNAME\")".toList

/-- Replacement inserting the publishStagingURL definition with its
Maven Central Portal staging default. -/
def b3 : List Char :=
  "def publishStagingURL = System.getenv(\"PUBLISH_STAGING_URL\") ?: \"https://ossrh-staging-api.central.sonatype.com/service/local/\"\ndef publishRepoUsername = System.getenv(\"PUBLISH_REPO_USERNAME\")".toList

/-- Replace target of the elif branch: publishStagingURL without a
default value. -/
def a3e : List Char :=
  "def publishStagingURL = System.getenv(\"PUBLISH_STAGING_URL\")".toList

/-- Replacement of the elif branch: publishStagingURL with the staging
default. -/
def b3e : List Char :=
  "def publishStagingURL = System.getenv(\"PUBLISH_STAGING_URL\") ?: \"https://ossrh-staging-api.central.sonatype.com/service/local/\"".toList

/-- The `?:` Elvis-operator marker checked in the staging branch. -/
def qcolon : List Char := "?:".toList

/-- The literal part of the publishRepoURL regex (the escaped dots and
parentheses of the Python pattern match these characters literally). -/
def a4 : List Char :=
  "def publishRepoURL = System.getenv(\"PUBLISH_REPO_URL\")".toList

/-- Replacement giving publishRepoURL its snapshots default. -/
def b4 : List Char :=
  "def publishRepoURL = System.getenv(\"PUBLISH_REPO_URL\") ?: \"https://central.sonatype.com/repository/maven-snapshots/\"".toList

/-- artifactId placeholder. -/
def a5 : List Char := "artifactId = \"webflow\"".toList

/-- artifactId replacement. -/
def b5 : List Char := "artifactId = \"pulumi-webflow\"".toList

/-- inceptionYear placeholder. -/
def a6 : List Char := "inceptionYear = \"\"".toList

/-- inceptionYear replacement. -/
def b6 : List Char := "inceptionYear = \"2025\"".toList

/-- Anchor of the pom-name regex. -/
def pomAnchor : List Char := "pom \x7b".toList

/-- The empty `name` placeholder removed by the pom/license/developer
name regexes. -/
def phName : List Char := "name = \"\"".toList

/-- pom name replacement text (inserted after the kept group). -/
def ins7 : List Char := "name = \"Pulumi Webflow Provider\"".toList

/-- URL placeholder. -/
def a8 : List Char := "url = \"https://example.com\"".toList

/-- URL replacement. -/
def b8 : List Char := "url = \"https://github.com/jdetmar/pulumi-webflow\"".toList

/-- SCM connection placeholder. -/
def a9 : List Char := "connection = \"https://example.com\"".toList

/-- SCM connection replacement. -/
def b9 : List Char :=
  "connection = \"scm:git:git://github.com/jdetmar/pulumi-webflow.git\"".toList

/-- SCM developerConnection placeholder. -/
def a10 : List Char := "developerConnection = \"https://example.com\"".toList

/-- SCM developerConnection replacement. -/
def b10 : List Char :=
  "developerConnection = \"scm:git:ssh://github.com:jdetmar/pulumi-webflow.git\"".toList

/-- Outer anchor of the license regexes. -/
def licAnchor1 : List Char := "licenses \x7b".toList

/-- Inner anchor of the license regexes. -/
def licAnchor2 : List Char := "license \x7b".toList

/-- License name replacement text. -/
def ins11 : List Char := "name = \"Apache-2.0\"".toList

/-- The empty `url` placeholder of the license-url regex. -/
def phUrl : List Char := "url = \"\"".toList

/-- License url replacement text. -/
def ins12 : List Char :=
  "url = \"https://www.apache.org/licenses/LICENSE-2.0\"".toList

/-- Outer anchor of the developer regexes. -/
def devAnchor1 : List Char := "developers \x7b".toList

/-- Inner anchor of the developer regexes. -/
def devAnchor2 : List Char := "developer \x7b".toList

/-- The empty `id` placeholder of the developer-id regex. -/
def phId : List Char := "id = \"\"".toList

/-- Developer id replacement text. -/
def ins13 : List Char := "id = \"jdetmar\"".toList

/-- Developer name replacement text. -/
def ins14 : List Char := "name = \"Justin Detmar\"".toList

/-- The empty `email` placeholder of the developer-email regex. -/
def phEmail : List Char := "email = \"\"".toList

/-- Developer email replacement text. -/
def ins15 : List Char := "email = \"jdetmar@users.noreply.github.com\"".toList

/-- Two-parameter signing call placeholder. -/
def a16 : List Char := "useInMemoryPgpKeys(signingKey, signingPassword)".toList

/-- Three-parameter signing call replacement. -/
def b16 : List Char :=
  "useInMemoryPgpKeys(signingKeyId, signingKey, signingPassword)".toList

/-- Marker: `'nexusPublishing {' in content`. -/
def nexusPat : List Char := "nexusPublishing \x7b".toList

/-- The nexusPublishing block the patcher appends after the publishing
block (the exact Python triple-quoted string, leading and trailing
newline included). -/
def nexusIns : List Char :=
  "\nif (publishRepoUsername) \x7b\n    nexusPublishing \x7b\n        repositories \x7b\n            sonatype \x7b\n                nexusUrl.set(uri(publishStagingURL))\n                snapshotRepositoryUrl.set(uri(publishRepoURL))\n                username = publishRepoUsername\n                password = publishRepoPassword\n            \x7d\n        \x7d\n    \x7d\n\x7d\n".toList

/-- The opening literal of the publishing-block search regex. -/
def pubOpen : List Char := "publishing \x7b".toList

end GradlePatch

namespace GradlePatch

/-- The negative lookahead `(?!\s*\?:)` of the publishRepoURL regex: the
lookahead matches (so the overall pattern FAILS) exactly when the text
after the literal consists of a whitespace run followed by `?:`; since
`?` is not whitespace this reduces to `?:` right after the maximal
whitespace run. -/
def defaultFollows (after : List Char) : Bool :=
  qcolon.isPrefixOf (after.dropWhile isWs)

/-- Leftmost match of the publishRepoURL pattern (literal plus negative
lookahead).  The lookahead consumes nothing, so the text after the match
is exactly the text after the literal. -/
def findRepo : List Char → Option (List Char × List Char)
  | [] => none
  | c :: t =>
    if a4.isPrefixOf (c :: t) && !defaultFollows ((c :: t).drop a4.length) then
      some ([], (c :: t).drop a4.length)
    else
      (findRepo t).map (fun pr => (c :: pr.1, pr.2))

/-- The greedy `\s*\n` tail of the publishing-block regex: splits off
the shortest prefix that ends at the LAST newline inside the leading
whitespace run (greedy `\s*` backtracking to the final `\n`). -/
def wsNlSplit : List Char → Option (List Char × List Char)
  | [] => none
  | c :: t =>
    if isWs c then
      match wsNlSplit t with
      | some (u, v) => some (c :: u, v)
      | none => if c = '\n' then some ([c], t) else none
    else none

/-- The lazy `.*?^\}\s*\n` tail of the publishing-block regex, scanned
with MULTILINE/DOTALL semantics: the first newline-preceded `}` whose
following whitespace run contains a newline; returns the consumed text
(up to and including the final newline of the match) and the rest. -/
def closeScan : List Char → Option (List Char × List Char)
  | [] => none
  | [_] => none
  | c :: d :: t =>
    if c = '\n' && d = '\x7d' then
      match wsNlSplit t with
      | some (w, rest) => some (c :: d :: w, rest)
      | none => (closeScan (d :: t)).map (fun pr => (c :: pr.1, pr.2))
    else (closeScan (d :: t)).map (fun pr => (c :: pr.1, pr.2))

/-- `re.search(r'(publishing \{.*?^\})\s*\n', content, MULTILINE|DOTALL)`:
leftmost `publishing {` occurrence followed (anywhere) by a
newline-preceded `}` and a whitespace run ending in a newline; returns
the text up to the match end (the insertion point for the nexus block)
and the rest.  Position 0 of the region after `publishing {` can never
be at a line start, since the preceding character is `{`. -/
def findPubSplit : List Char → Option (List Char × List Char)
  | [] => none
  | c :: t =>
    if pubOpen.isPrefixOf (c :: t) then
      match closeScan ((c :: t).drop pubOpen.length) with
      | some (mid, rest) => some (pubOpen ++ mid, rest)
      | none => (findPubSplit t).map (fun pr => (c :: pr.1, pr.2))
    else
      (findPubSplit t).map (fun pr => (c :: pr.1, pr.2))

/-- Patcher step: add the nexus publish plugin when absent
(patch-java-build-gradle.py lines 47-51). -/
def step1 (s : List Char) : List Char :=
  if containsB g1 s then s else replaceAll a1 b1 s

/-- Patcher step: add the signingKeyId variable when absent (lines
54-58). -/
def step2 (s : List Char) : List Char :=
  if containsB g2 s then s else replaceAll a2 b2 s

/-- Patcher step: add or default the publishStagingURL definition (lines
65-79): when missing, insert it in front of the publishRepoUsername
line; when present without a `?:` default on its first line, rewrite it
with the default. -/
def step3 (s : List Char) : List Char :=
  if containsB g3 s then
    let after :=
      match splitOccur g3 s with
      | some pr => pr.2
      | none => []
    let firstLine := after.takeWhile (fun c => c ≠ '\n')
    if containsB qcolon firstLine then s
    else replaceAll a3e b3e s
  else
    replaceAll a3 b3 s

/-- Patcher step: give publishRepoURL its default when it has none
(lines 82-86, the lookahead-guarded `re.sub`). -/
def step4 (s : List Char) : List Char :=
  subAllF findRepo b4 (s.length + 1) s

/-- Patcher step: fix artifactId (lines 89-92). -/
def step5 (s : List Char) : List Char :=
  replaceAll a5 b5 s

/-- Patcher step: fix inceptionYear (lines 95-98). -/
def step6 (s : List Char) : List Char :=
  replaceAll a6 b6 s

/-- Patcher step: fix the pom name, first match only (lines 101-106). -/
def step7 (s : List Char) : List Char :=
  subOnce (findOne pomAnchor phName) ins7 s

/-- Patcher step: fix the URL placeholder (lines 109-112). -/
def step8 (s : List Char) : List Char :=
  replaceAll a8 b8 s

/-- Patcher step: fix the SCM connection placeholder (lines 113-116). -/
def step9 (s : List Char) : List Char :=
  replaceAll a9 b9 s

/-- Patcher step: fix the SCM developerConnection placeholder (lines
117-120). -/
def step10 (s : List Char) : List Char :=
  replaceAll a10 b10 s

/-- Patcher step: fix the license name (lines 124-128). -/
def step11 (s : List Char) : List Char :=
  subAllF (findNest licAnchor1 licAnchor2 phName) ins11 (s.length + 1) s

/-- Patcher step: fix the license url (lines 130-134). -/
def step12 (s : List Char) : List Char :=
  subAllF (findNest licAnchor1 licAnchor2 phUrl) ins12 (s.length + 1) s

/-- Patcher step: fix the developer id (lines 137-141). -/
def step13 (s : List Char) : List Char :=
  subAllF (findNest devAnchor1 devAnchor2 phId) ins13 (s.length + 1) s

/-- Patcher step: fix the developer name (lines 142-146). -/
def step14 (s : List Char) : List Char :=
  subAllF (findNest devAnchor1 devAnchor2 phName) ins14 (s.length + 1) s

/-- Patcher step: fix the developer email (lines 147-151). -/
def step15 (s : List Char) : List Char :=
  subAllF (findNest devAnchor1 devAnchor2 phEmail) ins15 (s.length + 1) s

/-- Patcher step: use the three-parameter signing call (lines 154-157). -/
def step16 (s : List Char) : List Char :=
  replaceAll a16 b16 s

/-- All content rewrites of `patch_build_gradle` before the nexus-block
check, in source order (lines 47-157). -/
def transformPre (s : List Char) : List Char :=
  step16 (step15 (step14 (step13 (step12 (step11 (step10 (step9 (step8
    (step7 (step6 (step5 (step4 (step3 (step2 (step1 s)))))))))))))))

/-- The full content transformation of `patch_build_gradle` (lines
44-186): after the rewrites, append the nexus block after the publishing
block when the `nexusPublishing {` marker is absent; `none` is the
PatchError raised when the publishing block cannot be located. -/
def transformContent (s : List Char) : Option (List Char) :=
  let c := transformPre s
  if containsB nexusPat c then some c
  else
    match findPubSplit c with
    | some (bef, aft) => some (bef ++ nexusIns ++ aft)
    | none => none

/-- The errors `patch_build_gradle` raises in the embedded fragment. -/
inductive PatchErr where
  | fileNotFound
  | patchError
deriving DecidableEq, Repr

/-- The patch applied to an existing file's content: on success the
transformed text is written; a PatchError writes nothing, so the content
on disk stays as it was. -/
def applyPatch (s : List Char) : Option (List Char) × Option PatchErr :=
  match transformContent s with
  | some t => (some t, none)
  | none => (some s, some .patchError)

/-- `patch_build_gradle` against a file state (`none` = missing file):
a missing file raises FileNotFoundError before anything else (lines
34-37); the content is transformed in memory and written only at the end
(line 190), so a PatchError (line 182) leaves the file unchanged. -/
def runPatch : Option (List Char) → Option (List Char) × Option PatchErr
  | none => (none, some .fileNotFound)
  | some s => applyPatch s

end GradlePatch

open GradlePatch

/-- A build.gradle fragment whose pom block holds two empty name
placeholders; the count=1 pom-name rewrite fixes only the first, so the
file the first run writes still matches the pom-name pattern. -/
def exC9 : List Char :=
  "nexusPublishing \x7b\npom \x7b name = \"\" A name = \"\" \x7d\n".toList

/-- The first run's output on `exC9`. -/
def exC9a : List Char :=
  "nexusPublishing \x7b\npom \x7b name = \"Pulumi Webflow Provider\" A name = \"\" \x7d\n".toList

/-- The second run's output on `exC9a`: it differs again. -/
def exC9b : List Char :=
  "nexusPublishing \x7b\npom \x7b name = \"Pulumi Webflow Provider\" A name = \"Pulumi Webflow Provider\" \x7d\n".toList

/-- Counterexample to C9: the build.gradle content transformation is not
idempotent — on `exC9` the first application succeeds, and applying the
transformation to its own result changes the text again (the second
`name = ""` inside the pom block is rewritten by the second run), so the
second run neither leaves the text unchanged nor reports that no changes
were needed. -/
theorem patch_transform_not_idempotent :
    transformContent exC9 = some exC9a ∧
      transformContent exC9a = some exC9b ∧
      exC9b ≠ exC9a := by
  refine ⟨by decide, by decide, by decide⟩

/-- A sub-loop with no match leaves the text unchanged. -/
theorem subAllF_id (find : List Char → Option (List Char × List Char))
    (ins : List Char) (f : Nat) (s : List Char) (h : find s = none) :
    subAllF find ins f s = s := by
  cases f <;> simp [subAllF, h]

/-- A replace of an absent pattern leaves the text unchanged. -/
theorem replaceAll_id (a b s : List Char) (h : containsB a s = false) :
    replaceAll a b s = s := by
  unfold replaceAll
  apply subAllF_id
  unfold containsB at h
  cases hs : splitOccur a s with
  | none => rfl
  | some v => rw [hs] at h; simp at h

/-- A count=1 sub with no match leaves the text unchanged. -/
theorem subOnce_id (find : List Char → Option (List Char × List Char))
    (ins : List Char) (s : List Char) (h : find s = none) :
    subOnce find ins s = s := by
  simp [subOnce, h]

/-- Whether a second run of the patcher's content transformation has
nothing left to do: every insertion guard is satisfied or its target is
absent, no placeholder-fixing pattern still matches, and the
nexusPublishing marker is present. -/
def secondRunFixed (t : List Char) : Bool :=
  (containsB g1 t || !containsB a1 t) &&
  ((containsB g2 t || !containsB a2 t) &&
  ((if containsB g3 t then
      containsB qcolon
          ((match splitOccur g3 t with
            | some pr => pr.2
            | none => []).takeWhile (fun c => c ≠ '\n'))
        || !containsB a3e t
    else !containsB a3 t) &&
  ((findRepo t).isNone &&
  (!containsB a5 t &&
  (!containsB a6 t &&
  ((findOne pomAnchor phName t).isNone &&
  (!containsB a8 t &&
  (!containsB a9 t &&
  (!containsB a10 t &&
  ((findNest licAnchor1 licAnchor2 phName t).isNone &&
  ((findNest licAnchor1 licAnchor2 phUrl t).isNone &&
  ((findNest devAnchor1 devAnchor2 phId t).isNone &&
  ((findNest devAnchor1 devAnchor2 phName t).isNone &&
  ((findNest devAnchor1 devAnchor2 phEmail t).isNone &&
  (!containsB a16 t &&
  containsB nexusPat t)))))))))))))))

/-- Amended C9: the content transformation is idempotent exactly on the
settled texts — whenever a text has no remaining rewrite target (all
insertion guards hold or their targets are absent, no placeholder regex
matches, and the nexusPublishing marker is present), the transformation
returns it unchanged.  The counterexample shows the proviso is needed:
a first run's output can still contain a placeholder pattern. -/
theorem patch_transform_idempotent_when_settled (t : List Char)
    (h : secondRunFixed t = true) : transformContent t = some t := by
  unfold secondRunFixed at h
  simp only [Bool.and_eq_true] at h
  obtain ⟨h1, h2, h3, h4, h5, h6, h7, h8, h9, h10, h11, h12, h13, h14,
    h15, h16, h17⟩ := h
  have e1 : step1 t = t := by
    have h1' : containsB g1 t = true ∨ containsB a1 t = false := by
      simpa using h1
    rcases h1' with hg | hc
    · simp [step1, hg]
    · by_cases hg : containsB g1 t <;>
        simp [step1, hg, replaceAll_id _ _ _ hc]
  have e2 : step2 t = t := by
    have h2' : containsB g2 t = true ∨ containsB a2 t = false := by
      simpa using h2
    rcases h2' with hg | hc
    · simp [step2, hg]
    · by_cases hg : containsB g2 t <;>
        simp [step2, hg, replaceAll_id _ _ _ hc]
  have e3 : step3 t = t := by
    by_cases hg : containsB g3 t
    · rw [if_pos hg] at h3
      have h3' :
          containsB qcolon
              ((match splitOccur g3 t with
                | some pr => pr.2
                | none => []).takeWhile (fun c => c ≠ '\n')) = true ∨
            containsB a3e t = false := by
        simpa using h3
      rcases h3' with hq | hc
      · simp at hq
        simp [step3, hg, hq]
      · simp [step3, hg, replaceAll_id _ _ _ hc]
    · rw [if_neg hg] at h3
      have hc : containsB a3 t = false := by simpa using h3
      simp [step3, hg, replaceAll_id _ _ _ hc]
  have e4 : step4 t = t :=
    subAllF_id _ _ _ _ (Option.isNone_iff_eq_none.mp h4)
  have e5 : step5 t = t := replaceAll_id _ _ _ (by simpa using h5)
  have e6 : step6 t = t := replaceAll_id _ _ _ (by simpa using h6)
  have e7 : step7 t = t :=
    subOnce_id _ _ _ (Option.isNone_iff_eq_none.mp h7)
  have e8 : step8 t = t := replaceAll_id _ _ _ (by simpa using h8)
  have e9 : step9 t = t := replaceAll_id _ _ _ (by simpa using h9)
  have e10 : step10 t = t := replaceAll_id _ _ _ (by simpa using h10)
  have e11 : step11 t = t :=
    subAllF_id _ _ _ _ (Option.isNone_iff_eq_none.mp h11)
  have e12 : step12 t = t :=
    subAllF_id _ _ _ _ (Option.isNone_iff_eq_none.mp h12)
  have e13 : step13 t = t :=
    subAllF_id _ _ _ _ (Option.isNone_iff_eq_none.mp h13)
  have e14 : step14 t = t :=
    subAllF_id _ _ _ _ (Option.isNone_iff_eq_none.mp h14)
  have e15 : step15 t = t :=
    subAllF_id _ _ _ _ (Option.isNone_iff_eq_none.mp h15)
  have e16 : step16 t = t := replaceAll_id _ _ _ (by simpa using h16)
  have epre : transformPre t = t := by
    unfold transformPre
    rw [e1, e2, e3, e4, e5, e6, e7, e8, e9, e10, e11, e12, e13, e14, e15,
      e16]
  unfold transformContent
  rw [epre]
  simp [h17]

/-- Witness for the amended C9: the one-line marker text is settled, and
a second application returns it unchanged. -/
theorem patch_transform_idempotent_when_settled_witness :
    transformContent nexusPat = some nexusPat :=
  patch_transform_idempotent_when_settled nexusPat (by decide)

namespace GradlePatch

/-- An occurrence of `p` somewhere in `s`. -/
def Occ (p s : List Char) : Prop :=
  ∃ i, p <+: s.drop i

/-- `splitOccur` really splits: a successful split reassembles to the
input. -/
theorem splitOccur_spec (p : List Char) :
    ∀ s u v, splitOccur p s = some (u, v) → s = u ++ p ++ v := by
  intro s
  induction s with
  | nil =>
    intro u v h
    by_cases hp : p.isPrefixOf ([] : List Char)
    · have hpnil : p = [] := List.prefix_nil.mp (List.isPrefixOf_iff_prefix.mp hp)
      simp [splitOccur, hp] at h
      obtain ⟨hu, hv⟩ := h
      subst hu
      subst hv
      simp [hpnil]
    · simp [splitOccur, hp] at h
  | cons c t ih =>
    intro u v h
    unfold splitOccur at h
    by_cases hp : p.isPrefixOf (c :: t)
    · rw [if_pos hp] at h
      injection h with h'
      rw [Prod.mk.injEq] at h'
      obtain ⟨hu, hv⟩ := h'
      subst hu
      subst hv
      obtain ⟨r, hr⟩ := List.isPrefixOf_iff_prefix.mp hp
      rw [← hr, List.nil_append, List.drop_left]
    · rw [if_neg hp] at h
      cases hfind : splitOccur p t with
      | none => rw [hfind] at h; cases h
      | some pr =>
        rw [hfind] at h
        simp only [Option.map_some'] at h
        injection h with h'
        rw [Prod.mk.injEq] at h'
        obtain ⟨hu, hv⟩ := h'
        subst hu
        subst hv
        have := ih pr.1 pr.2 (by rw [hfind])
        simpa using congrArg (List.cons c) this

/-- `splitOccur` fails exactly when the pattern has no occurrence. -/
theorem splitOccur_none_iff (p : List Char) :
    ∀ s, splitOccur p s = none ↔ ¬ Occ p s := by
  intro s
  induction s with
  | nil =>
    by_cases hp : p.isPrefixOf ([] : List Char)
    · constructor
      · intro h
        simp [splitOccur, hp] at h
      · intro h
        exact absurd ⟨0, List.isPrefixOf_iff_prefix.mp hp⟩ h
    · constructor
      · intro _ hocc
        obtain ⟨i, hi⟩ := hocc
        rw [List.drop_nil] at hi
        exact hp (List.isPrefixOf_iff_prefix.mpr hi)
      · intro _
        simp [splitOccur, hp]
  | cons c t ih =>
    by_cases hp : p.isPrefixOf (c :: t)
    · constructor
      · intro h
        simp [splitOccur, hp] at h
      · intro h
        exact absurd ⟨0, List.isPrefixOf_iff_prefix.mp hp⟩ h
    · constructor
      · intro h hocc
        simp [splitOccur, hp] at h
        obtain ⟨i, hi⟩ := hocc
        cases i with
        | zero => exact hp (List.isPrefixOf_iff_prefix.mpr hi)
        | succ j => exact (ih.mp h) ⟨j, hi⟩
      · intro h
        simp [splitOccur, hp]
        exact ih.mpr (fun ⟨j, hj⟩ => h ⟨j + 1, hj⟩)

/-- `containsB` decides occurrence. -/
theorem containsB_false_iff (p s : List Char) :
    containsB p s = false ↔ ¬ Occ p s := by
  unfold containsB
  cases hs : splitOccur p s with
  | none => simpa using (splitOccur_none_iff p s).mp hs
  | some v =>
    simp only [Option.isSome_some]
    constructor
    · intro h; cases h
    · intro h
      have := (splitOccur_none_iff p s).mpr h
      rw [hs] at this
      cases this

/-- A successful `gapTo` reassembles to its input. -/
theorem gapTo_spec (ph : List Char) :
    ∀ s g r, gapTo ph s = some (g, r) → s = g ++ ph ++ r := by
  intro s
  induction s with
  | nil =>
    intro g r h
    by_cases hp : ph.isPrefixOf ([] : List Char)
    · have hpnil : ph = [] := List.prefix_nil.mp (List.isPrefixOf_iff_prefix.mp hp)
      simp [gapTo, hp] at h
      obtain ⟨hg, hr⟩ := h
      subst hg
      subst hr
      simp [hpnil]
    · simp [gapTo, hp] at h
  | cons c t ih =>
    intro g r h
    unfold gapTo at h
    by_cases hp : ph.isPrefixOf (c :: t)
    · rw [if_pos hp] at h
      injection h with h'
      rw [Prod.mk.injEq] at h'
      obtain ⟨hg, hr⟩ := h'
      subst hg
      subst hr
      obtain ⟨w, hw⟩ := List.isPrefixOf_iff_prefix.mp hp
      rw [← hw, List.nil_append, List.drop_left]
    · rw [if_neg hp] at h
      by_cases hc : c = '\x7d'
      · rw [if_pos hc] at h
        cases h
      · rw [if_neg hc] at h
        cases hfind : gapTo ph t with
        | none => rw [hfind] at h; cases h
        | some pr =>
          rw [hfind] at h
          simp only [Option.map_some'] at h
          injection h with h'
          rw [Prod.mk.injEq] at h'
          obtain ⟨hg, hr⟩ := h'
          subst hg
          subst hr
          simpa using congrArg (List.cons c) (ih pr.1 pr.2 (by rw [hfind]))

/-- A successful `scanNest` reassembles to its input. -/
theorem scanNest_spec (a2 ph : List Char) :
    ∀ s m r, scanNest a2 ph s = some (m, r) → s = m ++ ph ++ r := by
  intro s
  induction s with
  | nil =>
    intro m r h
    by_cases hp : a2.isPrefixOf ([] : List Char)
    · have hpnil : a2 = [] := List.prefix_nil.mp (List.isPrefixOf_iff_prefix.mp hp)
      unfold scanNest at h
      rw [if_pos hp] at h
      cases hg : gapTo ph ([] : List Char) with
      | none => rw [hg] at h; cases h
      | some pr =>
        rw [hg] at h
        injection h with h'
        rw [Prod.mk.injEq] at h'
        obtain ⟨hm, hr⟩ := h'
        subst hm
        subst hr
        have := gapTo_spec ph [] pr.1 pr.2 (by rw [hg])
        rw [hpnil, List.nil_append]
        exact this
    · unfold scanNest at h
      rw [if_neg hp] at h
      cases h
  | cons c t ih =>
    intro m r h
    unfold scanNest at h
    by_cases hp : a2.isPrefixOf (c :: t)
    · rw [if_pos hp] at h
      cases hg : gapTo ph ((c :: t).drop a2.length) with
      | some pr =>
        rw [hg] at h
        injection h with h'
        rw [Prod.mk.injEq] at h'
        obtain ⟨hm, hr⟩ := h'
        subst hm
        subst hr
        obtain ⟨w, hw⟩ := List.isPrefixOf_iff_prefix.mp hp
        have hdrop : (c :: t).drop a2.length = w := by
          rw [← hw, List.drop_left]
        have := gapTo_spec ph _ pr.1 pr.2 (by rw [hg])
        rw [hdrop] at this
        rw [← hw, this]
        simp [List.append_assoc]
      | none =>
        rw [hg] at h
        by_cases hc : c = '\x7d'
        · rw [if_pos hc] at h
          cases h
        · rw [if_neg hc] at h
          cases hfind : scanNest a2 ph t with
          | none => rw [hfind] at h; cases h
          | some pr =>
            rw [hfind] at h
            simp only [Option.map_some'] at h
            injection h with h'
            rw [Prod.mk.injEq] at h'
            obtain ⟨hm, hr⟩ := h'
            subst hm
            subst hr
            simpa using congrArg (List.cons c) (ih pr.1 pr.2 (by rw [hfind]))
    · rw [if_neg hp] at h
      by_cases hc : c = '\x7d'
      · rw [if_pos hc] at h
        cases h
      · rw [if_neg hc] at h
        cases hfind : scanNest a2 ph t with
        | none => rw [hfind] at h; cases h
        | some pr =>
          rw [hfind] at h
          simp only [Option.map_some'] at h
          injection h with h'
          rw [Prod.mk.injEq] at h'
          obtain ⟨hm, hr⟩ := h'
          subst hm
          subst hr
          simpa using congrArg (List.cons c) (ih pr.1 pr.2 (by rw [hfind]))

/-- A successful `findNest` reassembles to its input. -/
theorem findNest_spec (a1 a2 ph : List Char) :
    ∀ s pre r, findNest a1 a2 ph s = some (pre, r) → s = pre ++ ph ++ r := by
  intro s
  induction s with
  | nil =>
    intro pre r h
    by_cases hp : a1.isPrefixOf ([] : List Char)
    · have hpnil : a1 = [] := List.prefix_nil.mp (List.isPrefixOf_iff_prefix.mp hp)
      unfold findNest at h
      rw [if_pos hp] at h
      cases hg : scanNest a2 ph ([] : List Char) with
      | none => rw [hg] at h; cases h
      | some pr =>
        rw [hg] at h
        injection h with h'
        rw [Prod.mk.injEq] at h'
        obtain ⟨hm, hr⟩ := h'
        subst hm
        subst hr
        have := scanNest_spec a2 ph [] pr.1 pr.2 (by rw [hg])
        rw [hpnil, List.nil_append]
        exact this
    · unfold findNest at h
      rw [if_neg hp] at h
      cases h
  | cons c t ih =>
    intro pre r h
    unfold findNest at h
    by_cases hp : a1.isPrefixOf (c :: t)
    · rw [if_pos hp] at h
      cases hg : scanNest a2 ph ((c :: t).drop a1.length) with
      | some pr =>
        rw [hg] at h
        injection h with h'
        rw [Prod.mk.injEq] at h'
        obtain ⟨hm, hr⟩ := h'
        subst hm
        subst hr
        obtain ⟨w, hw⟩ := List.isPrefixOf_iff_prefix.mp hp
        have hdrop : (c :: t).drop a1.length = w := by
          rw [← hw, List.drop_left]
        have := scanNest_spec a2 ph _ pr.1 pr.2 (by rw [hg])
        rw [hdrop] at this
        rw [← hw, this]
        simp [List.append_assoc]
      | none =>
        rw [hg] at h
        cases hfind : findNest a1 a2 ph t with
        | none => rw [hfind] at h; cases h
        | some pr =>
          rw [hfind] at h
          simp only [Option.map_some'] at h
          injection h with h'
          rw [Prod.mk.injEq] at h'
          obtain ⟨hm, hr⟩ := h'
          subst hm
          subst hr
          simpa using congrArg (List.cons c) (ih pr.1 pr.2 (by rw [hfind]))
    · rw [if_neg hp] at h
      cases hfind : findNest a1 a2 ph t with
      | none => rw [hfind] at h; cases h
      | some pr =>
        rw [hfind] at h
        simp only [Option.map_some'] at h
        injection h with h'
        rw [Prod.mk.injEq] at h'
        obtain ⟨hm, hr⟩ := h'
        subst hm
        subst hr
        simpa using congrArg (List.cons c) (ih pr.1 pr.2 (by rw [hfind]))

/-- A successful `findOne` reassembles to its input. -/
theorem findOne_spec (a1 ph : List Char) :
    ∀ s pre r, findOne a1 ph s = some (pre, r) → s = pre ++ ph ++ r := by
  intro s
  induction s with
  | nil =>
    intro pre r h
    by_cases hp : a1.isPrefixOf ([] : List Char)
    · have hpnil : a1 = [] := List.prefix_nil.mp (List.isPrefixOf_iff_prefix.mp hp)
      unfold findOne at h
      rw [if_pos hp] at h
      cases hg : gapTo ph ([] : List Char) with
      | none => rw [hg] at h; cases h
      | some pr =>
        rw [hg] at h
        injection h with h'
        rw [Prod.mk.injEq] at h'
        obtain ⟨hm, hr⟩ := h'
        subst hm
        subst hr
        have := gapTo_spec ph [] pr.1 pr.2 (by rw [hg])
        rw [hpnil, List.nil_append]
        exact this
    · unfold findOne at h
      rw [if_neg hp] at h
      cases h
  | cons c t ih =>
    intro pre r h
    unfold findOne at h
    by_cases hp : a1.isPrefixOf (c :: t)
    · rw [if_pos hp] at h
      cases hg : gapTo ph ((c :: t).drop a1.length) with
      | some pr =>
        rw [hg] at h
        injection h with h'
        rw [Prod.mk.injEq] at h'
        obtain ⟨hm, hr⟩ := h'
        subst hm
        subst hr
        obtain ⟨w, hw⟩ := List.isPrefixOf_iff_prefix.mp hp
        have hdrop : (c :: t).drop a1.length = w := by
          rw [← hw, List.drop_left]
        have := gapTo_spec ph _ pr.1 pr.2 (by rw [hg])
        rw [hdrop] at this
        rw [← hw, this]
        simp [List.append_assoc]
      | none =>
        rw [hg] at h
        cases hfind : findOne a1 ph t with
        | none => rw [hfind] at h; cases h
        | some pr =>
          rw [hfind] at h
          simp only [Option.map_some'] at h
          injection h with h'
          rw [Prod.mk.injEq] at h'
          obtain ⟨hm, hr⟩ := h'
          subst hm
          subst hr
          simpa using congrArg (List.cons c) (ih pr.1 pr.2 (by rw [hfind]))
    · rw [if_neg hp] at h
      cases hfind : findOne a1 ph t with
      | none => rw [hfind] at h; cases h
      | some pr =>
        rw [hfind] at h
        simp only [Option.map_some'] at h
        injection h with h'
        rw [Prod.mk.injEq] at h'
        obtain ⟨hm, hr⟩ := h'
        subst hm
        subst hr
        simpa using congrArg (List.cons c) (ih pr.1 pr.2 (by rw [hfind]))

/-- A successful `findRepo` reassembles to its input with the literal
pattern removed at the match. -/
theorem findRepo_spec :
    ∀ s pre r, findRepo s = some (pre, r) → s = pre ++ a4 ++ r := by
  intro s
  induction s with
  | nil => intro pre r h; cases h
  | cons c t ih =>
    intro pre r h
    unfold findRepo at h
    by_cases hp : (a4.isPrefixOf (c :: t) &&
        !defaultFollows ((c :: t).drop a4.length)) = true
    · rw [if_pos hp] at h
      injection h with h'
      rw [Prod.mk.injEq] at h'
      obtain ⟨hm, hr⟩ := h'
      subst hm
      subst hr
      obtain ⟨w, hw⟩ :=
        List.isPrefixOf_iff_prefix.mp (Bool.and_elim_left hp)
      rw [← hw, List.nil_append, List.drop_left]
    · rw [if_neg hp] at h
      cases hfind : findRepo t with
      | none => rw [hfind] at h; cases h
      | some pr =>
        rw [hfind] at h
        simp only [Option.map_some'] at h
        injection h with h'
        rw [Prod.mk.injEq] at h'
        obtain ⟨hm, hr⟩ := h'
        subst hm
        subst hr
        simpa using congrArg (List.cons c) (ih pr.1 pr.2 (by rw [hfind]))

/-- A successful `wsNlSplit` reassembles to its input. -/
theorem wsNlSplit_spec :
    ∀ s u v, wsNlSplit s = some (u, v) → s = u ++ v := by
  intro s
  induction s with
  | nil => intro u v h; cases h
  | cons c t ih =>
    intro u v h
    unfold wsNlSplit at h
    by_cases hw : isWs c = true
    · rw [if_pos hw] at h
      cases hrec : wsNlSplit t with
      | some pr =>
        rw [hrec] at h
        injection h with h'
        rw [Prod.mk.injEq] at h'
        obtain ⟨hu, hv⟩ := h'
        subst hu
        subst hv
        simpa using congrArg (List.cons c) (ih pr.1 pr.2 (by rw [hrec]))
      | none =>
        rw [hrec] at h
        by_cases hn : c = '\n'
        · rw [if_pos hn] at h
          injection h with h'
          rw [Prod.mk.injEq] at h'
          obtain ⟨hu, hv⟩ := h'
          subst hu
          subst hv
          rfl
        · rw [if_neg hn] at h
          cases h
    · rw [if_neg hw] at h
      cases h

/-- A successful `closeScan` reassembles to its input. -/
theorem closeScan_spec :
    ∀ s m r, closeScan s = some (m, r) → s = m ++ r := by
  intro s
  induction s with
  | nil => intro m r h; cases h
  | cons c t ih =>
    intro m r h
    cases t with
    | nil => cases h
    | cons d t' =>
      unfold closeScan at h
      by_cases hcd : (c = '\n' && d = '\x7d') = true
      · rw [if_pos hcd] at h
        cases hws : wsNlSplit t' with
        | some pr =>
          rw [hws] at h
          injection h with h'
          rw [Prod.mk.injEq] at h'
          obtain ⟨hm, hr⟩ := h'
          subst hm
          subst hr
          have := wsNlSplit_spec t' pr.1 pr.2 (by rw [hws])
          simp [this]
        | none =>
          rw [hws] at h
          cases hrec : closeScan (d :: t') with
          | none => rw [hrec] at h; cases h
          | some pr =>
            rw [hrec] at h
            simp only [Option.map_some'] at h
            injection h with h'
            rw [Prod.mk.injEq] at h'
            obtain ⟨hm, hr⟩ := h'
            subst hm
            subst hr
            simpa using congrArg (List.cons c) (ih pr.1 pr.2 (by rw [hrec]))
      · rw [if_neg hcd] at h
        cases hrec : closeScan (d :: t') with
        | none => rw [hrec] at h; cases h
        | some pr =>
          rw [hrec] at h
          simp only [Option.map_some'] at h
          injection h with h'
          rw [Prod.mk.injEq] at h'
          obtain ⟨hm, hr⟩ := h'
          subst hm
          subst hr
          simpa using congrArg (List.cons c) (ih pr.1 pr.2 (by rw [hrec]))

/-- A successful `findPubSplit` reassembles to its input. -/
theorem findPubSplit_spec :
    ∀ s bef aft, findPubSplit s = some (bef, aft) → s = bef ++ aft := by
  intro s
  induction s with
  | nil => intro bef aft h; cases h
  | cons c t ih =>
    intro bef aft h
    unfold findPubSplit at h
    by_cases hp : pubOpen.isPrefixOf (c :: t)
    · rw [if_pos hp] at h
      cases hcl : closeScan ((c :: t).drop pubOpen.length) with
      | some pr =>
        rw [hcl] at h
        injection h with h'
        rw [Prod.mk.injEq] at h'
        obtain ⟨hm, hr⟩ := h'
        subst hm
        subst hr
        obtain ⟨w, hw⟩ := List.isPrefixOf_iff_prefix.mp hp
        have hdrop : (c :: t).drop pubOpen.length = w := by
          rw [← hw, List.drop_left]
        have := closeScan_spec _ pr.1 pr.2 (by rw [hcl])
        rw [hdrop] at this
        rw [← hw, this]
        simp [List.append_assoc]
      | none =>
        rw [hcl] at h
        cases hfind : findPubSplit t with
        | none => rw [hfind] at h; cases h
        | some pr =>
          rw [hfind] at h
          simp only [Option.map_some'] at h
          injection h with h'
          rw [Prod.mk.injEq] at h'
          obtain ⟨hm, hr⟩ := h'
          subst hm
          subst hr
          simpa using congrArg (List.cons c) (ih pr.1 pr.2 (by rw [hfind]))
    · rw [if_neg hp] at h
      cases hfind : findPubSplit t with
      | none => rw [hfind] at h; cases h
      | some pr =>
        rw [hfind] at h
        simp only [Option.map_some'] at h
        injection h with h'
        rw [Prod.mk.injEq] at h'
        obtain ⟨hm, hr⟩ := h'
        subst hm
        subst hr
        simpa using congrArg (List.cons c) (ih pr.1 pr.2 (by rw [hfind]))

/-- `Spl ins s t`: `t` arises from `s` by replacing finitely many
disjoint, left-to-right substrings of `s` with copies of `ins` — the
exact shape of every rewrite the patcher performs with insertion text
`ins`. -/
inductive Spl (ins : List Char) : List Char → List Char → Prop
  | base (s : List Char) : Spl ins s s
  | cons (A d s t : List Char) :
      Spl ins s t → Spl ins (A ++ d ++ s) (A ++ ins ++ t)

/-- Every sub-loop output is a splice of its input, provided the find
function truly splits off a fixed removed pattern. -/
theorem Spl_subAllF (find : List Char → Option (List Char × List Char))
    (ph ins : List Char)
    (hspec : ∀ s pre r, find s = some (pre, r) → s = pre ++ ph ++ r) :
    ∀ f s, Spl ins s (subAllF find ins f s) := by
  intro f
  induction f with
  | zero => intro s; exact Spl.base s
  | succ f ih =>
    intro s
    unfold subAllF
    cases hf : find s with
    | none => exact Spl.base s
    | some pr =>
      rw [hspec s pr.1 pr.2 (by rw [hf])]
      exact Spl.cons pr.1 ph pr.2 _ (ih pr.2)

/-- A count=1 sub output is a splice of its input. -/
theorem Spl_subOnce (find : List Char → Option (List Char × List Char))
    (ph ins : List Char)
    (hspec : ∀ s pre r, find s = some (pre, r) → s = pre ++ ph ++ r)
    (s : List Char) : Spl ins s (subOnce find ins s) := by
  unfold subOnce
  cases hf : find s with
  | none => exact Spl.base s
  | some pr =>
    rw [hspec s pr.1 pr.2 (by rw [hf])]
    exact Spl.cons pr.1 ph pr.2 pr.2 (Spl.base pr.2)

/-- A replace-all output is a splice of its input. -/
theorem Spl_replaceAll (a b s : List Char) : Spl b s (replaceAll a b s) :=
  Spl_subAllF (splitOccur a) a b (splitOccur_spec a) (s.length + 1) s

/-- step1 splices with `b1`. -/
theorem spl_step1 (s : List Char) : Spl b1 s (step1 s) := by
  unfold step1
  by_cases hg : containsB g1 s
  · rw [if_pos hg]; exact Spl.base s
  · rw [if_neg hg]; exact Spl_replaceAll a1 b1 s

/-- step2 splices with `b2`. -/
theorem spl_step2 (s : List Char) : Spl b2 s (step2 s) := by
  unfold step2
  by_cases hg : containsB g2 s
  · rw [if_pos hg]; exact Spl.base s
  · rw [if_neg hg]; exact Spl_replaceAll a2 b2 s

/-- step3 splices, with `b3` or with `b3e` depending on its branch. -/
theorem spl_step3 (s : List Char) :
    Spl b3 s (step3 s) ∨ Spl b3e s (step3 s) := by
  unfold step3
  by_cases hg : containsB g3 s
  · rw [if_pos hg]
    by_cases hq : containsB qcolon
        ((match splitOccur g3 s with
          | some pr => pr.2
          | none => []).takeWhile (fun c => c ≠ '\n'))
    · rw [if_pos hq]; exact Or.inl (Spl.base s)
    · rw [if_neg hq]; exact Or.inr (Spl_replaceAll a3e b3e s)
  · rw [if_neg hg]; exact Or.inl (Spl_replaceAll a3 b3 s)

/-- step4 splices with `b4`. -/
theorem spl_step4 (s : List Char) : Spl b4 s (step4 s) :=
  Spl_subAllF findRepo a4 b4 findRepo_spec (s.length + 1) s

/-- step5 splices with `b5`. -/
theorem spl_step5 (s : List Char) : Spl b5 s (step5 s) :=
  Spl_replaceAll a5 b5 s

/-- step6 splices with `b6`. -/
theorem spl_step6 (s : List Char) : Spl b6 s (step6 s) :=
  Spl_replaceAll a6 b6 s

/-- step7 splices with `ins7`. -/
theorem spl_step7 (s : List Char) : Spl ins7 s (step7 s) :=
  Spl_subOnce (findOne pomAnchor phName) phName ins7
    (findOne_spec pomAnchor phName) s

/-- step8 splices with `b8`. -/
theorem spl_step8 (s : List Char) : Spl b8 s (step8 s) :=
  Spl_replaceAll a8 b8 s

/-- step9 splices with `b9`. -/
theorem spl_step9 (s : List Char) : Spl b9 s (step9 s) :=
  Spl_replaceAll a9 b9 s

/-- step10 splices with `b10`. -/
theorem spl_step10 (s : List Char) : Spl b10 s (step10 s) :=
  Spl_replaceAll a10 b10 s

/-- step11 splices with `ins11`. -/
theorem spl_step11 (s : List Char) : Spl ins11 s (step11 s) :=
  Spl_subAllF (findNest licAnchor1 licAnchor2 phName) phName ins11
    (findNest_spec licAnchor1 licAnchor2 phName) (s.length + 1) s

/-- step12 splices with `ins12`. -/
theorem spl_step12 (s : List Char) : Spl ins12 s (step12 s) :=
  Spl_subAllF (findNest licAnchor1 licAnchor2 phUrl) phUrl ins12
    (findNest_spec licAnchor1 licAnchor2 phUrl) (s.length + 1) s

/-- step13 splices with `ins13`. -/
theorem spl_step13 (s : List Char) : Spl ins13 s (step13 s) :=
  Spl_subAllF (findNest devAnchor1 devAnchor2 phId) phId ins13
    (findNest_spec devAnchor1 devAnchor2 phId) (s.length + 1) s

/-- step14 splices with `ins14`. -/
theorem spl_step14 (s : List Char) : Spl ins14 s (step14 s) :=
  Spl_subAllF (findNest devAnchor1 devAnchor2 phName) phName ins14
    (findNest_spec devAnchor1 devAnchor2 phName) (s.length + 1) s

/-- step15 splices with `ins15`. -/
theorem spl_step15 (s : List Char) : Spl ins15 s (step15 s) :=
  Spl_subAllF (findNest devAnchor1 devAnchor2 phEmail) phEmail ins15
    (findNest_spec devAnchor1 devAnchor2 phEmail) (s.length + 1) s

/-- step16 splices with `b16`. -/
theorem spl_step16 (s : List Char) : Spl b16 s (step16 s) :=
  Spl_replaceAll a16 b16 s

/-- Where a prefix-occurrence sits relative to an append: entirely in the
left part, entirely in the right part, or straddling the boundary (in
which case the border splits the pattern into a nonempty suffix of the
left part and a nonempty prefix-remainder reaching into the right
part). -/
theorem prefix_drop_append (p X Y : List Char) (i : Nat)
    (h : p <+: (X ++ Y).drop i) :
    (i + p.length ≤ X.length ∧ p <+: X.drop i) ∨
    (X.length ≤ i ∧ p <+: Y.drop (i - X.length)) ∨
    (i < X.length ∧ X.length < i + p.length ∧
      X.drop i = p.take (X.length - i) ∧
      p.drop (X.length - i) <+: Y) := by
  rcases Nat.lt_or_ge i X.length with hi | hi
  · have hdrop : (X ++ Y).drop i = X.drop i ++ Y := by
      rw [List.drop_append_eq_append_drop, Nat.sub_eq_zero_of_le hi.le,
        List.drop_zero]
    rw [hdrop] at h
    have hlen : (X.drop i).length = X.length - i := List.length_drop i X
    rcases le_or_lt p.length (X.length - i) with hple | hplt
    · left
      refine ⟨by omega, ?_⟩
      exact (List.isPrefix_append_of_length (by rw [hlen]; exact hple)).mp h
    · right; right
      have hXp : X.drop i <+: p :=
        List.prefix_of_prefix_length_le (List.prefix_append _ _) h
          (by rw [hlen]; omega)
      have htake : X.drop i = p.take (X.length - i) := by
        have := List.prefix_iff_eq_take.mp hXp
        rw [this, hlen]
      refine ⟨hi, by omega, htake, ?_⟩
      have hpeq : p = X.drop i ++ Y.take (p.length - (X.length - i)) := by
        calc p = (X.drop i ++ Y).take p.length := List.prefix_iff_eq_take.mp h
          _ = (X.drop i).take p.length
              ++ Y.take (p.length - (X.drop i).length) :=
            List.take_append_eq_append_take
          _ = X.drop i ++ Y.take (p.length - (X.length - i)) := by
            rw [List.take_of_length_le (by rw [hlen]; omega), hlen]
      have hdr : p.drop (X.length - i) = Y.take (p.length - (X.length - i)) := by
        conv_lhs => rw [hpeq]
        rw [← hlen, List.drop_left]
      rw [hdr]
      exact List.take_prefix _ _
  · right; left
    have hdrop : (X ++ Y).drop i = Y.drop (i - X.length) := by
      rw [List.drop_append_eq_append_drop, List.drop_eq_nil_of_le hi,
        List.nil_append]
    rw [hdrop] at h
    exact ⟨hi, h⟩

/-- Side conditions under which splicing copies of `ins` can never
manufacture a new occurrence of `p`: `p` does not occur in `ins`, `ins`
does not occur in `p`, no short nonempty suffix of `ins` is a prefix of
`p`, and no short nonempty prefix of `ins` is a suffix of `p`.  All four
are decidable for concrete words. -/
def NoCreate (p ins : List Char) : Prop :=
  containsB p ins = false ∧
  containsB ins p = false ∧
  (∀ k < p.length, 0 < k → k ≤ ins.length →
    (ins.drop (ins.length - k)).isPrefixOf p = false) ∧
  (∀ k < p.length, 0 < k → k ≤ ins.length →
    (ins.take k).isSuffixOf p = false)

/-- An occurrence of `p` in a single splice `A ++ ins ++ B` lies wholly
inside `A` or wholly inside `B`: the side conditions exclude every way
of overlapping the inserted copy of `ins`. -/
theorem occ_in_splice {p ins : List Char} (A B : List Char) (i : Nat)
    (hp : p ≠ []) (hnc : NoCreate p ins)
    (h : p <+: (A ++ ins ++ B).drop i) :
    (i + p.length ≤ A.length ∧ p <+: A.drop i) ∨
    (A.length + ins.length ≤ i ∧ p <+: B.drop (i - A.length - ins.length)) := by
  obtain ⟨hni, hnip, hsufpre, hpresuf⟩ := hnc
  have hplen : 0 < p.length := List.length_pos.mpr hp
  rw [List.append_assoc] at h
  rcases prefix_drop_append p A (ins ++ B) i h with
    ⟨hl, hpx⟩ | ⟨hge, hY⟩ | ⟨hlt, hgt, htk, hdr⟩
  · exact Or.inl ⟨hl, hpx⟩
  · rcases prefix_drop_append p ins B (i - A.length) hY with
      ⟨hl2, hpi⟩ | ⟨hge2, hB⟩ | ⟨hlt2, hgt2, htk2, hdr2⟩
    · exact absurd ⟨i - A.length, hpi⟩ ((containsB_false_iff p ins).mp hni)
    · right
      refine ⟨by omega, ?_⟩
      have : i - A.length - ins.length = i - A.length - ins.length := rfl
      exact hB
    · exfalso
      have h1 : 0 < ins.length - (i - A.length) := by omega
      have h2 : ins.length - (i - A.length) < p.length := by omega
      have h3 : ins.length - (i - A.length) ≤ ins.length := by omega
      have hcond := hsufpre (ins.length - (i - A.length)) h2 h1 h3
      have heq : ins.length - (ins.length - (i - A.length)) = i - A.length := by
        omega
      rw [heq, htk2] at hcond
      exact absurd
        (List.isPrefixOf_iff_prefix.mpr
          (List.take_prefix (ins.length - (i - A.length)) p))
        (by simp [hcond])
  · exfalso
    have hmlt : A.length - i < p.length := by omega
    have hmpos : 0 < A.length - i := by omega
    have hqlen : (p.drop (A.length - i)).length = p.length - (A.length - i) :=
      List.length_drop _ p
    rcases le_or_lt (p.drop (A.length - i)).length ins.length with
      hle | hlt'
    · have hqins : p.drop (A.length - i) <+: ins :=
        (List.isPrefix_append_of_length hle).mp hdr
      have hqtake : ins.take (p.drop (A.length - i)).length
          = p.drop (A.length - i) :=
        (List.prefix_iff_eq_take.mp hqins).symm
      have hk1 : (p.drop (A.length - i)).length < p.length := by omega
      have hk2 : 0 < (p.drop (A.length - i)).length := by omega
      have hcond := hpresuf (p.drop (A.length - i)).length hk1 hk2 hle
      rw [hqtake] at hcond
      exact absurd
        (List.isSuffixOf_iff_suffix.mpr (List.drop_suffix (A.length - i) p))
        (by simp [hcond])
    · have hins_q : ins <+: p.drop (A.length - i) :=
        List.prefix_of_prefix_length_le (List.prefix_append _ _) hdr
          (le_of_lt hlt')
      exact absurd ⟨A.length - i, hins_q⟩ ((containsB_false_iff ins p).mp hnip)

/-- Splicing copies of `ins` never creates an occurrence of `p`: every
occurrence in the spliced text maps back to one in the original. -/
theorem occ_back {p ins : List Char} (hp : p ≠ []) (hnc : NoCreate p ins) :
    ∀ {s t : List Char}, Spl ins s t → Occ p t → Occ p s := by
  intro s t hspl
  induction hspl with
  | base s => exact id
  | cons A d s0 t0 hsub ih =>
    rintro ⟨i, hi⟩
    rcases occ_in_splice A t0 i hp hnc hi with ⟨hlen, hA⟩ | ⟨hge, hB⟩
    · refine ⟨i, ?_⟩
      have hplen : 0 < p.length := List.length_pos.mpr hp
      have hre : (A ++ d ++ s0).drop i = A.drop i ++ (d ++ s0) := by
        rw [List.append_assoc, List.drop_append_eq_append_drop,
          Nat.sub_eq_zero_of_le (by omega), List.drop_zero]
      rw [hre]
      exact hA.trans (List.prefix_append _ _)
    · obtain ⟨j, hj⟩ := ih ⟨i - A.length - ins.length, hB⟩
      refine ⟨A.length + d.length + j, ?_⟩
      have hre : (A ++ d ++ s0).drop (A.length + d.length + j) = s0.drop j := by
        have hl2 : (A ++ d).length = A.length + d.length :=
          List.length_append A d
        rw [List.drop_append_eq_append_drop,
          List.drop_eq_nil_of_le (by rw [hl2]; omega), List.nil_append, hl2]
        congr 1
        omega
      rw [hre]
      exact hj

/-- Whether the leading whitespace run of a text contains a newline —
exactly when `\s*\n` matches at its start. -/
def wsNl : List Char → Bool
  | [] => false
  | c :: t => if c = '\n' then true else (isWs c && wsNl t)

/-- `wsNl` over an append. -/
theorem wsNl_append (X Z : List Char) :
    wsNl (X ++ Z) = (wsNl X || (X.all isWs && wsNl Z)) := by
  induction X with
  | nil => simp [wsNl]
  | cons c t ih =>
    by_cases hc : c = '\n'
    · simp [wsNl, hc]
    · simp only [List.cons_append, wsNl, hc, if_false, List.all_cons]
      cases isWs c
      · simp
      · simpa using ih

/-- `wsNl` is monotone under extension on the right. -/
theorem wsNl_mono {X : List Char} (Z : List Char) (h : wsNl X = true) :
    wsNl (X ++ Z) = true := by
  rw [wsNl_append, h, Bool.true_or]

/-- Conditions on an inserted text that keep it out of every
publishing-block close: nonempty, brace-free, starting with
non-whitespace, not ending in a newline. -/
def InsOK (ins : List Char) : Prop :=
  ins ≠ [] ∧ (∀ c ∈ ins, c ≠ '\x7d') ∧
    (∀ c ∈ ins.take 1, isWs c = false) ∧
    (∀ c ∈ ins.drop (ins.length - 1), c ≠ '\n')

/-- An inserted text satisfying `InsOK` blocks the whitespace-newline
scan at its first character. -/
theorem wsNl_ins_false {ins : List Char} (hok : InsOK ins) (B : List Char) :
    wsNl (ins ++ B) = false := by
  obtain ⟨hne, _, hhead, _⟩ := hok
  cases ins with
  | nil => exact absurd rfl hne
  | cons c t =>
    have hcw : isWs c = false := hhead c (by simp)
    have hcn : c ≠ '\n' := by
      intro h
      rw [h] at hcw
      simp [isWs] at hcw
    simp [wsNl, hcn, hcw]

/-- A newline-preceded `}` whose following whitespace run reaches a
newline — the `^\}\s*\n` part of the publishing-block regex, with `k`
the index of the preceding newline. -/
def CloseIn (u : List Char) (k : Nat) : Prop :=
  ∃ r, u.drop k = '\n' :: '\x7d' :: r ∧ wsNl r = true

/-- A close index is inside the text. -/
theorem closeIn_lt {u : List Char} {k : Nat} (h : CloseIn u k) :
    k < u.length := by
  obtain ⟨r, hr, _⟩ := h
  by_contra hge
  rw [List.drop_eq_nil_of_le (by omega)] at hr
  cases hr

/-- A close inside the left part of an append survives the append. -/
theorem closeIn_append_left {A : List Char} {k : Nat} (Z : List Char)
    (h : CloseIn A k) : CloseIn (A ++ Z) k := by
  obtain ⟨r, hr, hws⟩ := h
  have hk : k < A.length := closeIn_lt ⟨r, hr, hws⟩
  refine ⟨r ++ Z, ?_, wsNl_mono Z hws⟩
  rw [List.drop_append_eq_append_drop, Nat.sub_eq_zero_of_le hk.le,
    List.drop_zero, hr]
  rfl

/-- A close inside the right part of an append shifts by the left
length. -/
theorem closeIn_shift {B : List Char} {k : Nat} (X : List Char)
    (h : CloseIn B k) : CloseIn (X ++ B) (X.length + k) := by
  obtain ⟨r, hr, hws⟩ := h
  refine ⟨r, ?_, hws⟩
  rw [List.drop_append_eq_append_drop, List.drop_eq_nil_of_le (by omega),
    List.nil_append, Nat.add_sub_cancel_left, hr]

/-- A close in a single splice `A ++ ins ++ B` lies wholly inside `A`
(including its whitespace run, which the inserted text would otherwise
block) or wholly inside `B`; it cannot touch the inserted copy. -/
theorem close_split {ins : List Char} (hok : InsOK ins) (A B : List Char)
    (k : Nat) (h : CloseIn (A ++ ins ++ B) k) :
    CloseIn A k ∨ ∃ k', k = A.length + ins.length + k' ∧ CloseIn B k' := by
  obtain ⟨hne, hbrace, hhead, hlast⟩ := hok
  obtain ⟨r, hr, hws⟩ := h
  rw [List.append_assoc] at hr
  rcases Nat.lt_or_ge k A.length with hk | hk
  · -- the '\n' is inside A
    have hdrop : (A ++ (ins ++ B)).drop k = A.drop k ++ (ins ++ B) := by
      rw [List.drop_append_eq_append_drop, Nat.sub_eq_zero_of_le hk.le,
        List.drop_zero]
    rw [hdrop] at hr
    have hlenA : (A.drop k).length = A.length - k := List.length_drop k A
    cases hAd : A.drop k with
    | nil =>
      rw [hAd] at hlenA
      simp only [List.length_nil] at hlenA
      omega
    | cons x xs =>
      rw [hAd] at hr
      cases xs with
      | nil =>
        -- the '}' would be the head of ins
        exfalso
        simp only [List.cons_append, List.nil_append] at hr
        have hx := (List.cons_eq_cons.mp hr).2
        cases ins with
        | nil => exact absurd rfl hne
        | cons c t =>
          have := (List.cons_eq_cons.mp hx).1
          exact hbrace c (by simp) this
      | cons y ys =>
        left
        simp only [List.cons_append] at hr
        obtain ⟨hx, hr2⟩ := List.cons_eq_cons.mp hr
        obtain ⟨hy, hr3⟩ := List.cons_eq_cons.mp hr2
        -- r = ys ++ (ins ++ B); its wsNl evidence lies within ys
        have hwsys : wsNl ys = true := by
          rw [← hr3, wsNl_append,
            wsNl_ins_false ⟨hne, hbrace, hhead, hlast⟩ B] at hws
          simpa using hws
        refine ⟨ys, ?_, hwsys⟩
        rw [hAd, hx, hy]
  · rcases Nat.lt_or_ge k (A.length + ins.length) with hk2 | hk2
    · -- the '\n' would be inside ins
      exfalso
      have hdrop : (A ++ (ins ++ B)).drop k = ins.drop (k - A.length) ++ B := by
        rw [List.drop_append_eq_append_drop, List.drop_eq_nil_of_le hk,
          List.nil_append, List.drop_append_eq_append_drop,
          Nat.sub_eq_zero_of_le
            (show k - A.length ≤ ins.length by omega), List.drop_zero]
      rw [hdrop] at hr
      have hleni : (ins.drop (k - A.length)).length = ins.length - (k - A.length) :=
        List.length_drop _ ins
      cases hid : ins.drop (k - A.length) with
      | nil =>
        rw [hid] at hleni
        simp only [List.length_nil] at hleni
        omega
      | cons x xs =>
        rw [hid] at hr
        cases xs with
        | nil =>
          -- x is the last character of ins and equals '\n'
          simp only [List.cons_append, List.nil_append] at hr
          have hx := (List.cons_eq_cons.mp hr).1
          rw [hid] at hleni
          simp only [List.length_cons, List.length_nil] at hleni
          have hmem : x ∈ ins.drop (ins.length - 1) := by
            have hj : ins.length - 1 = k - A.length := by omega
            rw [hj, hid]
            simp
          exact hlast x hmem hx
        | cons y ys =>
          -- y is '}' inside ins
          simp only [List.cons_append] at hr
          obtain ⟨_, hr2⟩ := List.cons_eq_cons.mp hr
          obtain ⟨hy, _⟩ := List.cons_eq_cons.mp hr2
          have hymem : y ∈ ins := by
            have : y ∈ ins.drop (k - A.length) := by
              rw [hid]; simp
            exact List.mem_of_mem_drop this
          exact hbrace y hymem hy
    · -- the close is inside B
      right
      refine ⟨k - A.length - ins.length, by omega, ?_⟩
      have hdrop : (A ++ (ins ++ B)).drop k = B.drop (k - A.length - ins.length) := by
        rw [List.drop_append_eq_append_drop, List.drop_eq_nil_of_le hk,
          List.nil_append, List.drop_append_eq_append_drop,
          List.drop_eq_nil_of_le
            (show ins.length ≤ k - A.length by omega), List.nil_append]
      rw [hdrop] at hr
      exact ⟨r, hr, hws⟩

/-- Splicing copies of an `InsOK` text never creates a close: every
close in the spliced text maps back to one in the original. -/
theorem closeBack {ins : List Char} (hok : InsOK ins) :
    ∀ {s t : List Char}, Spl ins s t →
      (∃ k, CloseIn t k) → ∃ k', CloseIn s k' := by
  intro s t hspl
  induction hspl with
  | base s => exact id
  | cons A d s0 t0 hsub ih =>
    rintro ⟨k, hk⟩
    rcases close_split hok A t0 k hk with hA | ⟨k', _, hB⟩
    · refine ⟨k, ?_⟩
      rw [List.append_assoc]
      exact closeIn_append_left (d ++ s0) hA
    · obtain ⟨k'', hk''⟩ := ih ⟨k', hB⟩
      refine ⟨(A ++ d).length + k'', ?_⟩
      rw [List.append_assoc, ← List.append_assoc]
      exact closeIn_shift (A ++ d) hk''

/-- Existence of a publishing-block regex match: a `publishing {`
occurrence followed (at distance ≥ 11 from its start, i.e. at or after
its closing brace) by a newline-preceded `}` with a whitespace run
reaching a newline. -/
def HasPub (u : List Char) : Prop :=
  ∃ i k, pubOpen <+: u.drop i ∧ CloseIn u k ∧ i + 11 ≤ k

/-- Shifting a close out of a dropped prefix. -/
theorem closeIn_of_drop {u : List Char} {n k : Nat}
    (h : CloseIn (u.drop n) k) : CloseIn u (n + k) := by
  obtain ⟨r, hr, hws⟩ := h
  exact ⟨r, by rw [← List.drop_drop k n u]; exact hr, hws⟩

/-- Shifting a close into a dropped prefix. -/
theorem closeIn_drop_of {u : List Char} {n k : Nat}
    (h : CloseIn u (n + k)) : CloseIn (u.drop n) k := by
  obtain ⟨r, hr, hws⟩ := h
  exact ⟨r, by rw [List.drop_drop k n u]; exact hr, hws⟩

/-- A close one position into a cons is a close in the tail. -/
theorem closeIn_cons_succ {c : Char} {t : List Char} {k : Nat} :
    CloseIn (c :: t) (k + 1) ↔ CloseIn t k := by
  unfold CloseIn
  rw [List.drop_succ_cons]

/-- Splicing copies of a text satisfying the overlap side conditions
never creates a publishing-block match: every match in the spliced text
maps back to one in the original. -/
theorem hasPub_back {ins : List Char} (hok : InsOK ins)
    (hnc : NoCreate pubOpen ins) :
    ∀ {s t : List Char}, Spl ins s t → HasPub t → HasPub s := by
  intro s t hspl
  induction hspl with
  | base s => exact id
  | cons A d s0 t0 hsub ih =>
    rintro ⟨i, k, hopen, hclose, hord⟩
    have hpne : pubOpen ≠ [] := by decide
    have hp12 : pubOpen.length = 12 := rfl
    rcases occ_in_splice A t0 i hpne hnc hopen with ⟨hlen, hA⟩ | ⟨hge, hB⟩
    · have hiA : i < A.length := by omega
      have hopenS : pubOpen <+: (A ++ d ++ s0).drop i := by
        have hre : (A ++ d ++ s0).drop i = A.drop i ++ (d ++ s0) := by
          rw [List.append_assoc, List.drop_append_eq_append_drop,
            Nat.sub_eq_zero_of_le hiA.le, List.drop_zero]
        rw [hre]
        exact hA.trans (List.prefix_append _ _)
      rcases close_split hok A t0 k hclose with hcA | ⟨k', hkeq, hk'⟩
      · refine ⟨i, k, hopenS, ?_, hord⟩
        rw [List.append_assoc]
        exact closeIn_append_left (d ++ s0) hcA
      · obtain ⟨k'', hk''⟩ := closeBack hok hsub ⟨k', hk'⟩
        refine ⟨i, (A ++ d).length + k'', hopenS, closeIn_shift (A ++ d) hk'', ?_⟩
        have hlapp : (A ++ d).length = A.length + d.length :=
          List.length_append A d
        omega
    · rcases close_split hok A t0 k hclose with hcA | ⟨k', hkeq, hk'⟩
      · exfalso
        have hklt := closeIn_lt hcA
        have hinpos : 0 < ins.length :=
          List.length_pos.mpr hok.1
        omega
      · have hpub0 : HasPub t0 :=
          ⟨i - A.length - ins.length, k', hB, hk', by omega⟩
        obtain ⟨i2, k2, ho2, hc2, hord2⟩ := ih hpub0
        refine ⟨(A ++ d).length + i2, (A ++ d).length + k2, ?_,
          closeIn_shift (A ++ d) hc2, by omega⟩
        have hre : (A ++ d ++ s0).drop ((A ++ d).length + i2) = s0.drop i2 := by
          rw [List.drop_append_eq_append_drop,
            List.drop_eq_nil_of_le (by omega), List.nil_append,
            Nat.add_sub_cancel_left]
        rw [hre]
        exact ho2

/-- `wsNlSplit` fails exactly when no whitespace-then-newline prefix
exists. -/
theorem wsNlSplit_none_iff : ∀ r, wsNlSplit r = none ↔ wsNl r = false := by
  intro r
  induction r with
  | nil => simp [wsNlSplit, wsNl]
  | cons c t ih =>
    by_cases hw : isWs c = true
    · by_cases hn : c = '\n'
      · cases hrec : wsNlSplit t with
        | some pr => simp [wsNlSplit, hw, hrec, wsNl, hn, isWs]
        | none => simp [wsNlSplit, hw, hrec, wsNl, hn, isWs]
      · cases hrec : wsNlSplit t with
        | some pr =>
          rw [hrec] at ih
          simp only [reduceCtorEq, false_iff] at ih
          have hit : wsNl t = true := by
            revert ih
            cases wsNl t <;> simp
          simp [wsNlSplit, hw, hrec, wsNl, hn, hit]
        | none =>
          simp [wsNlSplit, hw, hrec, wsNl, hn, (ih.mp hrec)]
    · have hn : c ≠ '\n' := by
        intro h
        rw [h] at hw
        simp [isWs] at hw
      simp [wsNlSplit, hw, wsNl, hn]

/-- `closeScan` fails exactly when the text holds no close. -/
theorem closeScan_none_iff : ∀ u, closeScan u = none ↔ ∀ k, ¬ CloseIn u k := by
  intro u
  induction u with
  | nil =>
    simp only [closeScan, true_iff]
    intro k hk
    obtain ⟨r, hr, _⟩ := hk
    rw [List.drop_nil] at hr
    cases hr
  | cons c t ih =>
    cases t with
    | nil =>
      simp only [closeScan, true_iff]
      intro k hk
      obtain ⟨r, hr, _⟩ := hk
      cases k with
      | zero => cases hr
      | succ k' =>
        rw [List.drop_succ_cons, List.drop_nil] at hr
        cases hr
    | cons d t' =>
      have hsucc : ∀ k, CloseIn (c :: d :: t') (k + 1) ↔ CloseIn (d :: t') k :=
        fun k => closeIn_cons_succ
      by_cases hcd : (c = '\n' && d = '\x7d') = true
      · obtain ⟨hc, hd⟩ := Bool.and_eq_true_iff.mp hcd
        have hc' := of_decide_eq_true hc
        have hd' := of_decide_eq_true hd
        cases hws : wsNlSplit t' with
        | some pr =>
          have hwst : wsNl t' = true := by
            rcases hwsv : wsNl t' with _ | _
            · rw [(wsNlSplit_none_iff t').mpr hwsv] at hws
              cases hws
            · rfl
          constructor
          · intro h
            rw [closeScan, if_pos hcd, hws] at h
            cases h
          · intro h
            exact absurd ⟨t', by simp [hc', hd'], hwst⟩ (h 0)
        | none =>
          have hwst : wsNl t' = false := (wsNlSplit_none_iff t').mp hws
          rw [closeScan, if_pos hcd, hws]
          constructor
          · intro h k hk
            cases k with
            | zero =>
              obtain ⟨r, hr, hrws⟩ := hk
              rw [List.drop_zero] at hr
              obtain ⟨_, hr2⟩ := List.cons_eq_cons.mp hr
              obtain ⟨_, hr3⟩ := List.cons_eq_cons.mp hr2
              rw [← hr3] at hrws
              rw [hrws] at hwst
              cases hwst
            | succ k' =>
              have hrec : closeScan (d :: t') = none :=
                Option.map_eq_none'.mp h
              exact (ih.mp hrec) k' ((hsucc k').mp hk)
          · intro h
            have : closeScan (d :: t') = none :=
              ih.mpr (fun k hk => h (k + 1) ((hsucc k).mpr hk))
            rw [this]
            rfl
      · rw [closeScan, if_neg hcd]
        have hcd' : ¬ (c = '\n' ∧ d = '\x7d') := by
          intro ⟨h1, h2⟩
          rw [h1, h2] at hcd
          simp at hcd
        constructor
        · intro h k hk
          cases k with
          | zero =>
            obtain ⟨r, hr, _⟩ := hk
            rw [List.drop_zero] at hr
            obtain ⟨h1, hr2⟩ := List.cons_eq_cons.mp hr
            obtain ⟨h2, _⟩ := List.cons_eq_cons.mp hr2
            exact hcd' ⟨h1, h2⟩
          | succ k' =>
            have hrec : closeScan (d :: t') = none :=
              Option.map_eq_none'.mp h
            exact (ih.mp hrec) k' ((hsucc k').mp hk)
        · intro h
          have : closeScan (d :: t') = none :=
            ih.mpr (fun k hk => h (k + 1) ((hsucc k).mpr hk))
          rw [this]
          rfl

/-- `findPubSplit` fails exactly when no publishing-block match exists. -/
theorem findPubSplit_none_iff : ∀ s, findPubSplit s = none ↔ ¬ HasPub s := by
  intro s
  induction s with
  | nil =>
    simp only [findPubSplit, true_iff]
    rintro ⟨i, k, hopen, _, _⟩
    rw [List.drop_nil] at hopen
    exact absurd (List.prefix_nil.mp hopen) (by decide)
  | cons c t ih =>
    have hp12 : pubOpen.length = 12 := rfl
    by_cases hp : pubOpen.isPrefixOf (c :: t)
    · cases hcl : closeScan ((c :: t).drop pubOpen.length) with
      | some pr =>
        constructor
        · intro h
          simp only [findPubSplit] at h
          rw [if_pos hp, hcl] at h
          cases h
        · intro h
          exfalso
          have hex : ∃ k, CloseIn ((c :: t).drop pubOpen.length) k := by
            by_contra hno
            push_neg at hno
            rw [(closeScan_none_iff _).mpr hno] at hcl
            cases hcl
          obtain ⟨k', hk'⟩ := hex
          exact h ⟨0, pubOpen.length + k',
            by rw [List.drop_zero]; exact List.isPrefixOf_iff_prefix.mp hp,
            closeIn_of_drop hk', by omega⟩
      | none =>
        have hnone : ∀ k, ¬ CloseIn ((c :: t).drop pubOpen.length) k :=
          (closeScan_none_iff _).mp hcl
        have hzero : ∀ k, CloseIn (c :: t) k → 11 ≤ k → False := by
          intro k hk hordk
          rcases Nat.lt_or_ge k 12 with hk12 | hk12
          · have hk11 : k = 11 := by omega
            obtain ⟨r, hr, _⟩ := hk
            obtain ⟨w, hw⟩ := List.isPrefixOf_iff_prefix.mp hp
            rw [hk11, ← hw, List.drop_append_eq_append_drop] at hr
            have hb : pubOpen.drop 11 = ['\x7b'] := rfl
            rw [hb] at hr
            exact absurd (List.cons_eq_cons.mp hr).1 (by decide)
          · have hk' : CloseIn (c :: t) (12 + (k - 12)) := by
              rw [show 12 + (k - 12) = k by omega]
              exact hk
            exact (hnone (k - 12)) (by rw [hp12]; exact closeIn_drop_of hk')
        have hiff : HasPub (c :: t) ↔ HasPub t := by
          constructor
          · rintro ⟨i, k, hopen, hclose, hord⟩
            cases i with
            | zero => exact (hzero k hclose (by omega)).elim
            | succ j =>
              cases k with
              | zero => omega
              | succ k'' =>
                exact ⟨j, k'', by rwa [List.drop_succ_cons] at hopen,
                  closeIn_cons_succ.mp hclose, by omega⟩
          · rintro ⟨j, k'', hopen, hclose, hord⟩
            exact ⟨j + 1, k'' + 1, by rwa [List.drop_succ_cons],
              closeIn_cons_succ.mpr hclose, by omega⟩
        simp only [findPubSplit]
        rw [if_pos hp, hcl, Option.map_eq_none', ih, hiff]
    · have hiff : HasPub (c :: t) ↔ HasPub t := by
        constructor
        · rintro ⟨i, k, hopen, hclose, hord⟩
          cases i with
          | zero =>
            rw [List.drop_zero] at hopen
            exact absurd (List.isPrefixOf_iff_prefix.mpr hopen) hp
          | succ j =>
            cases k with
            | zero => omega
            | succ k'' =>
              exact ⟨j, k'', by rwa [List.drop_succ_cons] at hopen,
                closeIn_cons_succ.mp hclose, by omega⟩
        · rintro ⟨j, k'', hopen, hclose, hord⟩
          exact ⟨j + 1, k'' + 1, by rwa [List.drop_succ_cons],
            closeIn_cons_succ.mpr hclose, by omega⟩
      simp only [findPubSplit]
      rw [if_neg hp, Option.map_eq_none', ih, hiff]

instance (p ins : List Char) : Decidable (NoCreate p ins) := by
  unfold NoCreate
  infer_instance

instance (ins : List Char) : Decidable (InsOK ins) := by
  unfold InsOK
  infer_instance

/-- None of the patcher's sixteen rewrites can manufacture an occurrence
of the `nexusPublishing {` marker: an occurrence after the rewrites maps
back to one in the original content. -/
theorem nexus_occ_back (s : List Char)
    (h : Occ nexusPat (transformPre s)) : Occ nexusPat s := by
  have hne : nexusPat ≠ [] := by decide
  unfold transformPre at h
  have h16 := occ_back hne (by decide) (spl_step16 _) h
  have h15 := occ_back hne (by decide) (spl_step15 _) h16
  have h14 := occ_back hne (by decide) (spl_step14 _) h15
  have h13 := occ_back hne (by decide) (spl_step13 _) h14
  have h12 := occ_back hne (by decide) (spl_step12 _) h13
  have h11 := occ_back hne (by decide) (spl_step11 _) h12
  have h10 := occ_back hne (by decide) (spl_step10 _) h11
  have h9 := occ_back hne (by decide) (spl_step9 _) h10
  have h8 := occ_back hne (by decide) (spl_step8 _) h9
  have h7 := occ_back hne (by decide) (spl_step7 _) h8
  have h6 := occ_back hne (by decide) (spl_step6 _) h7
  have h5 := occ_back hne (by decide) (spl_step5 _) h6
  have h4 := occ_back hne (by decide) (spl_step4 _) h5
  have h3 : Occ nexusPat (step2 (step1 s)) := by
    rcases spl_step3 (step2 (step1 s)) with h3s | h3s
    · exact occ_back hne (by decide) h3s h4
    · exact occ_back hne (by decide) h3s h4
  have h2 := occ_back hne (by decide) (spl_step2 _) h3
  exact occ_back hne (by decide) (spl_step1 _) h2

/-- None of the patcher's sixteen rewrites can manufacture a
publishing-block match: a match after the rewrites maps back to one in
the original content. -/
theorem pub_back_pre (s : List Char)
    (h : HasPub (transformPre s)) : HasPub s := by
  unfold transformPre at h
  have h16 := hasPub_back (by decide) (by decide) (spl_step16 _) h
  have h15 := hasPub_back (by decide) (by decide) (spl_step15 _) h16
  have h14 := hasPub_back (by decide) (by decide) (spl_step14 _) h15
  have h13 := hasPub_back (by decide) (by decide) (spl_step13 _) h14
  have h12 := hasPub_back (by decide) (by decide) (spl_step12 _) h13
  have h11 := hasPub_back (by decide) (by decide) (spl_step11 _) h12
  have h10 := hasPub_back (by decide) (by decide) (spl_step10 _) h11
  have h9 := hasPub_back (by decide) (by decide) (spl_step9 _) h10
  have h8 := hasPub_back (by decide) (by decide) (spl_step8 _) h9
  have h7 := hasPub_back (by decide) (by decide) (spl_step7 _) h8
  have h6 := hasPub_back (by decide) (by decide) (spl_step6 _) h7
  have h5 := hasPub_back (by decide) (by decide) (spl_step5 _) h6
  have h4 := hasPub_back (by decide) (by decide) (spl_step4 _) h5
  have h3 : HasPub (step2 (step1 s)) := by
    rcases spl_step3 (step2 (step1 s)) with h3s | h3s
    · exact hasPub_back (by decide) (by decide) h3s h4
    · exact hasPub_back (by decide) (by decide) h3s h4
  have h2 := hasPub_back (by decide) (by decide) (spl_step2 _) h3
  exact hasPub_back (by decide) (by decide) (spl_step1 _) h2

/-- C10: `patch_build_gradle` is atomic on failure — on a file whose
content contains neither a `nexusPublishing {` marker nor a matching
`publishing { ... }` block, the function raises PatchError before the
write, leaving the file byte-for-byte unchanged; and a missing file
raises FileNotFoundError without creating anything. -/
theorem patch_error_leaves_file_unchanged :
    (∀ s : List Char, containsB nexusPat s = false → findPubSplit s = none →
        transformContent s = none ∧
          runPatch (some s) = (some s, some .patchError)) ∧
      runPatch none = (none, some .fileNotFound) := by
  constructor
  · intro s h1 h2
    have hocc : ¬ Occ nexusPat s := (containsB_false_iff _ _).mp h1
    have hpub : ¬ HasPub s := (findPubSplit_none_iff s).mp h2
    have hocc2 : containsB nexusPat (transformPre s) = false :=
      (containsB_false_iff _ _).mpr (fun h => hocc (nexus_occ_back s h))
    have hpub2 : findPubSplit (transformPre s) = none :=
      (findPubSplit_none_iff _).mpr (fun h => hpub (pub_back_pre s h))
    have htc : transformContent s = none := by
      simp only [transformContent]
      rw [hocc2, if_neg (show ¬(false = true) by simp), hpub2]
    refine ⟨htc, ?_⟩
    show applyPatch s = (some s, some PatchErr.patchError)
    unfold applyPatch
    rw [htc]
  · rfl

/-- Witness for C10: a one-character file without marker or publishing
block is left untouched by the failing patch run. -/
theorem patch_error_leaves_file_unchanged_witness :
    runPatch (some ['x']) = (some ['x'], some GradlePatch.PatchErr.patchError) :=
  (patch_error_leaves_file_unchanged.1 ['x'] (by decide) (by decide)).2

end GradlePatch
